import Mathlib

/-!
Verification development for the block-fill level generator.

Shallow embedding conventions:
* JS numbers that hold 32-bit values are modelled as `Nat`/`Int` with explicit
  `% 2^32` wrapping; JS bitwise ops coerce operands to 32-bit patterns, and two
  JS numbers congruent mod `2^32` have the same 32-bit pattern, so the whole
  mulberry32 mix is computed on `Nat` patterns below `2^32`.
* `Math.floor(prng.random() * n)` with `random() = t / 2^32` (`t < 2^32` a
  whole number) is exact double arithmetic whenever `t * n < 2^53`, i.e. for
  every `n < 2^21`; every use in this code base has `n ≤ w*h`, far below that
  bound, so it is modelled exactly as `t * n / 2^32` in `Nat`.
* JS `Set`/insertion-ordered `Map` become Lean lists in insertion order with
  membership-checked insertion; `Array.from` is the identity on that list.
* Fractional quantities (hole density, metrics ratios) are modelled in `ℚ`.
  Concrete inputs in counterexamples/witnesses only use dyadic values such as
  `1/4` or `1/2`, for which the JS double arithmetic is exact as well.
-/

set_option maxRecDepth 8000

namespace BlockFill

/-! ### PRNG, translated from `src/lib/undoRedo.ts` (`class PRNG`), which is
textually repeated inside `src/lib/worker-factory.ts` (`getPRNGImplementation`).
The worker-factory copy is embedded separately in the `WF` namespace below. -/

/-- `2^32`, the wrap modulus of JS 32-bit bitwise coercion. -/
def U32 : Nat := 4294967296

/-- JS `ToInt32`: the signed 32-bit value congruent to `x` mod `2^32`. -/
def toInt32 (x : Int) : Int := (x + 2 ^ 31) % 2 ^ 32 - 2 ^ 31

/-- One iteration of `hashString`'s loop:
`hash = ((hash << 5) - hash) + char; hash = hash & hash;`.
`hash << 5` wraps to int32, the subtraction/addition are exact doubles, and
`hash & hash` wraps the result back to int32. -/
def hashStep (h : Int) (c : Nat) : Int := toInt32 (toInt32 (h * 32) - h + c)

/-- `PRNG.hashString` from `undoRedo.ts`: rolling hash over UTF-16 code units
(`charCodeAt`, which is `Char.toNat` for the BMP strings used as seeds),
finished with `Math.abs`. -/
def hashString (s : String) : Nat :=
  (s.data.foldl (fun h c => hashStep h c.toNat) 0).natAbs

/-- The mulberry32 additive constant `0x6D2B79F5`. -/
def MB : Nat := 0x6D2B79F5

/-- The mulberry32 mix: given the (unwrapped) state, produce the 32-bit output
numerator `t` with `random() = t / 2^32`.  All steps are on 32-bit patterns. -/
def mix (s : Nat) : Nat :=
  let t0 := s % U32
  let t1 := ((t0 ^^^ (t0 >>> 15)) * (t0 ||| 1)) % U32
  let t2 := t1 ^^^ ((t1 + ((t1 ^^^ (t1 >>> 7)) * (t1 ||| 61)) % U32) % U32)
  t2 ^^^ (t2 >>> 14)

/-- `random()`: advance the state by `MB` and mix.  Returns `(t, state')` where
the JS return value is the double `t / 2^32`.  The JS state is a double that is
never wrapped; it stays exact below `2^53` (billions of draws), so `Nat` is a
faithful model. -/
def nextT (s : Nat) : Nat × Nat := (mix (s + MB), s + MB)

/-- `Math.floor(prng.random() * n)`, exact for the small `n` used here. -/
def randFloorStep (n : Nat) (s : Nat) : Nat × Nat :=
  let (t, s') := nextT s
  (t * n / U32, s')

/-- `randInt(min, max) = Math.floor(random() * (max - min + 1)) + min`
(every call site in the embedded flows has `min ≤ max`). -/
def randIntStep (minv maxv : Nat) (s : Nat) : Nat × Nat :=
  let (t, s') := nextT s
  (t * (maxv - minv + 1) / U32 + minv, s')

/-- The simultaneous JS swap `[a[i], a[j]] = [a[j], a[i]]` (in bounds at every
call site; out of bounds it is the identity). -/
def swapIfInBounds (l : List α) (i j : Nat) : List α :=
  match l.get? i, l.get? j with
  | some a, some b => (l.set i b).set j a
  | _, _ => l

/-- The Fisher–Yates loop of `shuffle`: `for (i = n-1; i > 0; i--)` with
`j = randInt(0, i)`, descending on the loop index `i`. -/
def fyAux : Nat → List α → Nat → List α × Nat
  | 0, res, s => (res, s)
  | i + 1, res, s =>
    let (j, s') := randIntStep 0 (i + 1) s
    fyAux i (swapIfInBounds res (i + 1) j) s'

/-- `PRNG.shuffle`: copies the input (`[...array]`, implicit here since lists
are immutable) and runs Fisher–Yates on the copy. -/
def shuffle (l : List α) (s : Nat) : List α × Nat := fyAux (l.length - 1) l s

/-! ### Grid geometry.  Cells are `(x, y)` coordinate pairs; the JS code keys
sets and maps by the string `"x,y"`, which is injective on integer pairs, so a
list of pairs in insertion order is a faithful model of those sets. -/

/-- A grid cell `(x, y)`. -/
abbrev Cell := Int × Int

/-- JS `Set.add`: append if absent, keep insertion order. -/
def insertUnique [DecidableEq α] (l : List α) (a : α) : List α :=
  if a ∈ l then l else l ++ [a]

/-- 4-adjacency: the two cells share an edge. -/
def cellAdj (a b : Cell) : Prop := (a.1 - b.1).natAbs + (a.2 - b.2).natAbs = 1

instance : DecidablePred fun p : Cell × Cell => cellAdj p.1 p.2 := by
  intro p; unfold cellAdj; infer_instance

instance (a b : Cell) : Decidable (cellAdj a b) := by
  unfold cellAdj; infer_instance

/-- One step inside a cell set: both endpoints belong to it and are adjacent. -/
def stepIn (cells : List Cell) (a b : Cell) : Prop :=
  a ∈ cells ∧ b ∈ cells ∧ cellAdj a b

/-- Connectivity inside a cell set (reflexive-transitive closure of `stepIn`). -/
def connIn (cells : List Cell) : Cell → Cell → Prop :=
  Relation.ReflTransGen (stepIn cells)

/-- The open cells form one 4-connected component: non-empty and mutually
connected inside the set. -/
def oneComponent (cells : List Cell) : Prop :=
  cells ≠ [] ∧ ∀ a ∈ cells, ∀ b ∈ cells, connIn cells a b

/-! ### Irregular region growth, translated from `src/lib/irRegion.ts`. -/

/-- The `bounds` record of an `IRRegion`. -/
structure Bounds where
  minX : Int
  maxX : Int
  minY : Int
  maxY : Int
deriving DecidableEq, Repr

/-- `IRRegion` from `irRegion.ts`: insertion-ordered cell set plus bounds. -/
structure IRRegion where
  cells : List Cell
  width : Int
  height : Int
  bounds : Bounds
deriving DecidableEq, Repr

/-- `addNeighborsToFrontier`: pushes the in-bounds neighbors of `(x,y)` that
are in neither `cells` nor `frontier`, in source order left, right, up, down. -/
def addNeighborsToFrontier (x y w h : Int) (cells frontier : List Cell) : List Cell :=
  [(x - 1, y), (x + 1, y), (x, y - 1), (x, y + 1)].foldl
    (fun fr (c : Cell) =>
      if 0 ≤ c.1 ∧ c.1 < w ∧ 0 ≤ c.2 ∧ c.2 < h ∧ c ∉ cells ∧ c ∉ fr then fr ++ [c] else fr)
    frontier

/-- State of the growth loop: the open set, the frontier, the PRNG state. -/
structure GrowState where
  cells : List Cell
  frontier : List Cell
  s : Nat
deriving Repr

/-- One iteration of the growth loop of `generateIRRegion`: draw a random
frontier index, move that cell into the open set, push its new neighbors. -/
def irStep (w h : Int) (st : GrowState) : GrowState :=
  let idx := (randFloorStep st.frontier.length st.s).1
  let cell := st.frontier.getD idx (0, 0)
  let frontier' := st.frontier.erase cell
  let cells' := insertUnique st.cells cell
  ⟨cells', addNeighborsToFrontier cell.1 cell.2 w h cells' frontier',
    (randFloorStep st.frontier.length st.s).2⟩

/-- The `while (cells.size < targetCells && frontier.size > 0)` loop.  The
fuel only bounds the recursion; since every iteration moves a frontier cell
(disjoint from `cells`) into `cells`, `target + 1` units are never exhausted. -/
def irLoop (w h : Int) (target : Nat) : Nat → GrowState → GrowState
  | 0, st => st
  | fuel + 1, st =>
    if st.cells.length < target ∧ st.frontier ≠ [] then
      irLoop w h target fuel (irStep w h st)
    else st

/-- The bounds fold of `generateIRRegion`: running min/max of the coordinates,
initialised with `minX = width, maxX = 0, minY = height, maxY = 0`. -/
def boundsFold (w h : Int) (cells : List Cell) : Bounds :=
  cells.foldl
    (fun b c => ⟨min b.minX c.1, max b.maxX c.1, min b.minY c.2, max b.maxY c.2⟩)
    ⟨w, 0, h, 0⟩

/-- `generateIRRegion` from `irRegion.ts`: grow a connected region from the
center cell by repeatedly opening a uniformly drawn frontier cell. -/
def generateIRRegion (w h : Int) (fillRatio : ℚ) (s : Nat) : IRRegion × Nat :=
  let target := (⌊(w * h : Int) * fillRatio⌋).toNat
  let startX := w / 2
  let startY := h / 2
  let cells0 : List Cell := [(startX, startY)]
  let frontier0 := addNeighborsToFrontier startX startY w h cells0 []
  let st := irLoop w h target (target + 1) ⟨cells0, frontier0, s⟩
  let b := boundsFold w h st.cells
  (⟨st.cells, b.maxX - b.minX + 1, b.maxY - b.minY + 1, b⟩, st.s)

/-- `normalizeRegion`: translate every cell by `(-minX, -minY)`.  The JS code
re-inserts the translated keys into a fresh `Set`; translation is injective,
so this is a plain `map`. -/
def normalizeRegion (r : IRRegion) : IRRegion :=
  { cells := r.cells.map fun c => (c.1 - r.bounds.minX, c.2 - r.bounds.minY)
    width := r.width
    height := r.height
    bounds := ⟨0, r.width - 1, 0, r.height - 1⟩ }

/-! ### Hamiltonian path construction, translated from the `hamiltonian`
module (`src/unnamed/part_001`). -/

/-- The `HamiltonianPath` result record. -/
structure HamiltonianPath where
  path : List Cell
  success : Bool
deriving DecidableEq, Repr

/-- Adjacency check of the validation loop: consecutive cells at Manhattan
distance exactly 1. -/
def chainAdj : List Cell → Bool
  | a :: b :: rest =>
    decide ((a.1 - b.1).natAbs + (a.2 - b.2).natAbs = 1) && chainAdj (b :: rest)
  | _ => true

/-- Grouping of cells into horizontal strips keyed by `y`: a JS `Map` in key
insertion order, each strip extended at its end. -/
def addToStrip : List (Int × List Cell) → Cell → List (Int × List Cell)
  | [], c => [(c.2, [c])]
  | (y, strip) :: rest, c =>
    if c.2 = y then (y, strip ++ [c]) :: rest else (y, strip) :: addToStrip rest c

/-- The `strips` map of `stripAndStitch`. -/
def stripsOf (cells : List Cell) : List (Int × List Cell) :=
  cells.foldl addToStrip []

/-- Serpentine concatenation: alternate strips are reversed.  In the source,
`reverseNext` is flipped after every strip (both branches of the unused
`canConnect` test flip it identically, so that test is dead code). -/
def stitch : List (List Cell) → Bool → List Cell
  | [], _ => []
  | strip :: rest, rev => (if rev then strip.reverse else strip) ++ stitch rest (!rev)

/-- `stripAndStitch` (draws no randomness despite receiving the PRNG):
serpentine walk over row strips sorted by `y`, cells sorted by `x`, then the
validation of length and consecutive adjacency.  The `path.length ===
cells.length` check always passes (the strips partition the cells), so
success is decided by the adjacency sweep. -/
def stripAndStitch (region : IRRegion) : HamiltonianPath :=
  let cells := region.cells.map fun c => (c.1 - region.bounds.minX, c.2 - region.bounds.minY)
  if cells = [] then ⟨[], false⟩
  else
    let sortedStrips :=
      ((stripsOf cells).mergeSort fun a b => a.1 ≤ b.1).map fun p =>
        p.2.mergeSort fun a b => a.1 ≤ b.1
    let path := stitch sortedStrips false
    if path.length = cells.length ∧ chainAdj path = true then ⟨path, true⟩ else ⟨[], false⟩

/-- The neighbor scan of the module `dfs`: directions down, right, up, left;
a neighbor qualifies if its translation back by the bounds offset is in
`region.cells` and it is unvisited. -/
def dfsNeighbors (region : IRRegion) (visited : List Cell) (c : Cell) : List Cell :=
  [((0 : Int), (1 : Int)), (1, 0), (0, -1), (-1, 0)].foldl
    (fun acc d =>
      let n : Cell := (c.1 + d.1, c.2 + d.2)
      if (n.1 + region.bounds.minX, n.2 + region.bounds.minY) ∈ region.cells ∧ n ∉ visited then
        acc ++ [n]
      else acc)
    []

/-- The inline Fisher–Yates of the module DFS (`Math.floor(prng.random() *
(i + 1))`), identical in value to `PRNG.shuffle`. -/
def inlineShuffleAux : Nat → List α → Nat → List α × Nat
  | 0, res, s => (res, s)
  | i + 1, res, s =>
    let (j, s') := randFloorStep (i + 2) s
    inlineShuffleAux i (swapIfInBounds res (i + 1) j) s'

/-- The inline shuffle over a copied array. -/
def inlineShuffle (l : List α) (s : Nat) : List α × Nat := inlineShuffleAux (l.length - 1) l s

/-- The `for (const neighbor of shuffledNeighbors)` loop of `dfs`,
parametrized by the recursive call `rec` (the one-level-deeper `dfs`); when
all children fail, remove the current cell from `visited` and pop the path. -/
def dfsMTry (rec : Cell → List Cell → List Cell → Nat → Bool × List Cell × List Cell × Nat)
    (cur : Cell) : List Cell → List Cell → List Cell → Nat →
    Bool × List Cell × List Cell × Nat
  | [], visited, path, s => (false, visited.erase cur, path.dropLast, s)
  | n :: rest, visited, path, s =>
    match rec n visited path s with
    | (true, v', p', s') => (true, v', p', s')
    | (false, v', p', s') => dfsMTry rec cur rest v' p' s'

/-- The recursive `dfs` of the `hamiltonian` module: push the current cell,
succeed when the path covers all cells, otherwise recurse into the shuffled
unvisited neighbors and backtrack on failure.  The fuel only bounds the
recursion depth, which never exceeds `cells.length` (each level extends the
path by one distinct cell), so `cells.length + 1` units are never exhausted. -/
def dfsM (region : IRRegion) (cells : List Cell) : Nat → Cell →
    List Cell → List Cell → Nat → Bool × List Cell × List Cell × Nat
  | 0, _, visited, path, s => (false, visited, path, s)
  | fuel + 1, cur, visited, path, s =>
    let visited' := insertUnique visited cur
    let path' := path ++ [cur]
    if path'.length = cells.length then (true, visited', path', s)
    else
      let nbrs := dfsNeighbors region visited' cur
      let sh := inlineShuffle nbrs s
      dfsMTry (dfsM region cells fuel) cur sh.1 visited' path' sh.2

/-- The candidate-start loop of the module `dfsHamiltonianPath`. -/
def tryStarts (region : IRRegion) (cells : List Cell) :
    List Cell → Nat → HamiltonianPath × Nat
  | [], s => (⟨[], false⟩, s)
  | st :: rest, s =>
    match dfsM region cells (cells.length + 1) st [] [] s with
    | (true, _, p, s') => (⟨p, true⟩, s')
    | (false, _, _, s') => tryStarts region cells rest s'

/-- The module `dfsHamiltonianPath` (no call budget): shuffle the cells,
take the first `min 5 n` as candidate starts, and run the DFS from each. -/
def dfsHamiltonianPath (region : IRRegion) (s : Nat) : HamiltonianPath × Nat :=
  let cells := region.cells.map fun c => (c.1 - region.bounds.minX, c.2 - region.bounds.minY)
  if cells = [] then (⟨[], false⟩, s)
  else
    let sh := inlineShuffle cells s
    tryStarts region cells (sh.1.take (min 5 sh.1.length)) sh.2

/-- The strip-and-stitch attempt loop of `generateHamiltonianPath`; the
attempts draw no randomness and are identical, so each retry re-runs the same
computation, exactly as in the source. -/
def tryStrips (region : IRRegion) (s : Nat) : Nat → HamiltonianPath × Nat
  | 0 => dfsHamiltonianPath region s
  | k + 1 =>
    let r := stripAndStitch region
    if r.success then (r, s) else tryStrips region s k

/-- `generateHamiltonianPath` from the `hamiltonian` module: strip-and-stitch
up to `maxAttempts` (default 3) times, then the DFS fallback. -/
def generateHamiltonianPath (region : IRRegion) (s : Nat) (maxAttempts : Nat := 3) :
    HamiltonianPath × Nat :=
  tryStrips region s maxAttempts

/-- `pathToSolution`: encode each consecutive step as a direction
(0 = up, 1 = right, 2 = down, 3 = left). -/
def pathToSolution : List Cell → List Nat
  | a :: b :: rest =>
    (if b.1 > a.1 then 1 else if b.1 < a.1 then 3 else if b.2 > a.2 then 2 else 0)
      :: pathToSolution (b :: rest)
  | _ => []

/-! ### The `Level` data model and the module generator, translated from
`src/workers/gen.worker.ts` (the copy importing `irRegion`/`hamiltonian`). -/

/-- `Level.metrics`.  JS computes the ratios in doubles; they are modelled in
`ℚ` (only equality of metrics is ever asserted, which is preserved). -/
structure Metrics where
  size : Nat
  holeDensity : ℚ
  branchingFactor : ℚ
  forcedMoveRatio : ℚ
  corridorsPercent : ℚ
  turnRate : ℚ
deriving DecidableEq, Repr

/-- The generation request / share-code parameter record (`GameParams` /
`WorkerMessage.params`: `v, m, w, h, k, hd, diff, seed`, all optional). -/
structure GameParams where
  v : Option Int := none
  m : Option Int := none
  w : Option Int := none
  h : Option Int := none
  k : Option Int := none
  hd : Option ℚ := none
  diff : Option String := none
  seed : Option String := none
deriving DecidableEq, Repr

/-- JS `params.x || d` for an integer field: `undefined`, and the falsy `0`,
fall back to the default. -/
def orIntD (o : Option Int) (d : Int) : Int :=
  match o with
  | some v => if v = 0 then d else v
  | none => d

/-- JS `params.hd || d`: `undefined` and the falsy `0` fall back. -/
def orQD (o : Option ℚ) (d : ℚ) : ℚ :=
  match o with
  | some q => if q = 0 then d else q
  | none => d

/-- JS `params.seed || d`: `undefined` and the falsy `""` fall back. -/
def orStrD (o : Option String) (d : String) : String :=
  match o with
  | some s => if s = "" then d else s
  | none => d

/-- The `Level` record.  The source field `open` (a `Uint8Array` of 0/1) is
named `openMask` here because `open` is a Lean keyword. -/
structure Level where
  v : Nat
  mode : Int
  w : Int
  h : Int
  openMask : List Nat
  starts : List (Nat × Int)
  pairs : Option (List (Nat × Int × Int)) := none
  solution : List Nat
  metrics : Metrics
  seed : String
  params : GameParams
deriving DecidableEq, Repr

/-- A `Uint8Array` write `open[index] = val`: out-of-range indices are
silently ignored, exactly as for JS typed arrays. -/
def maskSet (m : List Nat) (idx : Int) (val : Nat) : List Nat :=
  if 0 ≤ idx ∧ idx < (m.length : Int) then m.set idx.toNat val else m

/-- The number of open 4-neighbors of `c` inside `cells` (the inner direction
loop of `calculateMetrics`). -/
def validMoves (cells : List Cell) (c : Cell) : Nat :=
  ([((0 : Int), (1 : Int)), (1, 0), (0, -1), (-1, 0)].filter
    fun d => decide ((c.1 + d.1, c.2 + d.2) ∈ cells)).length

/-- The turn counter of `calculateMetrics`: direction changes over the
consecutive triples of the path. -/
def turnCount : List Cell → Nat
  | a :: b :: c :: rest =>
    (if (b.1 - a.1, b.2 - a.2) ≠ (c.1 - b.1, c.2 - b.2) then 1 else 0)
      + turnCount (b :: c :: rest)
  | _ => 0

/-- `calculateMetrics` from `gen.worker.ts` (and, textually identical, from
`worker-factory.ts`), over the cell set of the (normalized) region and the
path.  Divisions are `ℚ` divisions; a zero denominator (empty region) would
be NaN in JS and is 0 here — no embedded flow reaches that case. -/
def calculateMetrics (cells : List Cell) (path : List Cell) (w h : Int) : Metrics :=
  let size := cells.length
  let holeDensity : ℚ := 1 - (size : ℚ) / ((w * h : Int) : ℚ)
  let totalBranches := (cells.map fun c => validMoves cells c).sum
  let branchingFactor : ℚ := (totalBranches : ℚ) / (size : ℚ)
  let forcedMoves := (cells.filter fun c => decide (validMoves cells c = 1)).length
  let forcedMoveRatio : ℚ := (forcedMoves : ℚ) / (size : ℚ)
  let corridors :=
    (cells.filter fun c =>
      let hasUp := decide ((c.1, c.2 - 1) ∈ cells)
      let hasDown := decide ((c.1, c.2 + 1) ∈ cells)
      let hasLeft := decide ((c.1 - 1, c.2) ∈ cells)
      let hasRight := decide ((c.1 + 1, c.2) ∈ cells)
      (hasUp && hasDown && !hasLeft && !hasRight) || (!hasUp && !hasDown && hasLeft && hasRight)).length
  let corridorsPercent : ℚ := (corridors : ℚ) / (size : ℚ)
  let turnRate : ℚ :=
    if 2 < path.length then (turnCount path : ℚ) / ((path.length : ℚ) - 2) else 0
  ⟨size, holeDensity, branchingFactor, forcedMoveRatio, corridorsPercent, turnRate⟩

/-- The direction draws of `generateSimpleLevel`'s
`shuffled.slice(0, target).map(() => Math.floor(prng.random() * 4))`:
one draw per element, in order. -/
def randDirs : Nat → Nat → List Nat × Nat
  | 0, s => ([], s)
  | n + 1, s =>
    let (d, s') := randFloorStep 4 s
    let (rest, s'') := randDirs n s'
    (d :: rest, s'')

/-- `generateSimpleLevel` from `gen.worker.ts` (the fallback used for mode 1
when Hamiltonian construction fails, and for every other mode): open the
first `target` cells of a uniform shuffle of all indices, fixed metrics. -/
def generateSimpleLevel (params : GameParams) (s : Nat) : Level :=
  let w := orIntD params.w 10
  let h := orIntD params.h 10
  let holeDensity := orQD params.hd (1 / 10)
  let mode := orIntD params.m 1
  let seed := orStrD params.seed "default"
  let totalCells := w * h
  let target := (⌊(totalCells : ℚ) * (1 - holeDensity)⌋).toNat
  let openIndices : List Int := (List.range totalCells.toNat).map Int.ofNat
  let sh := shuffle openIndices s
  let shuffled := sh.1
  let openM := (shuffled.take target).foldl (fun m i => maskSet m i 1)
    (List.replicate totalCells.toNat 0)
  let startIndex := shuffled.headD 0
  { v := 1, mode := mode, w := w, h := h, openMask := openM
    starts := [(0, startIndex)], solution := (randDirs (shuffled.take target).length sh.2).1
    metrics := ⟨target, holeDensity, 2, 3 / 10, 1 / 5, 2 / 5⟩
    seed := seed, params := params }

/-- `generateLevel` from `gen.worker.ts`: for mode 1, grow an irregular
region, normalize it, build a Hamiltonian path, and assemble the level (open
mask from the *normalized* cells); on failure, or for any other mode, fall
back to `generateSimpleLevel` with the current PRNG state. -/
def generateLevel (params : GameParams) : Level :=
  let seed := orStrD params.seed "default"
  let s₀ := hashString seed
  let w := orIntD params.w 10
  let h := orIntD params.h 10
  let holeDensity := orQD params.hd (1 / 10)
  let mode := orIntD params.m 1
  if mode = 1 then
    let fillRatio := 1 - holeDensity
    let rg := generateIRRegion w h fillRatio s₀
    let normalized := normalizeRegion rg.1
    let hp := generateHamiltonianPath normalized rg.2 3
    let hamPath := hp.1
    if hamPath.success = false ∨ hamPath.path = [] then generateSimpleLevel params hp.2
    else
      let openM := normalized.cells.foldl (fun m c => maskSet m (c.2 * w + c.1) 1)
        (List.replicate (w * h).toNat 0)
      let start := hamPath.path.headD (0, 0)
      { v := 1, mode := mode, w := w, h := h, openMask := openM
        starts := [(0, start.2 * w + start.1)]
        solution := pathToSolution hamPath.path
        metrics := calculateMetrics normalized.cells hamPath.path w h
        seed := seed, params := params }
  else generateSimpleLevel params s₀

namespace WF

/-! ### The string-embedded duplicate implementation assembled in
`src/lib/worker-factory.ts`.  Its PRNG is embedded afresh (to compare with
the module PRNG); helpers that are textually identical to the module copies
(`pathToSolution`, `calculateMetrics`, `generateSimpleLevel`) are reused. -/

/-- `hashString` of the worker-factory PRNG (`getPRNGImplementation`). -/
def hashString (str : String) : Nat :=
  (str.data.foldl (fun h c => toInt32 (toInt32 (h * 32) - h + c.toNat)) 0).natAbs

/-- The worker-factory `random()` mix (`this.state += 0x6D2B79F5; ...`). -/
def mix (s : Nat) : Nat :=
  let t0 := s % U32
  let t1 := ((t0 ^^^ (t0 >>> 15)) * (t0 ||| 1)) % U32
  let t2 := t1 ^^^ ((t1 + ((t1 ^^^ (t1 >>> 7)) * (t1 ||| 61)) % U32) % U32)
  t2 ^^^ (t2 >>> 14)

/-- The worker-factory `random()`, in numerator form. -/
def nextT (s : Nat) : Nat × Nat := (mix (s + 0x6D2B79F5), s + 0x6D2B79F5)

/-- The worker-factory `randInt(min, max)`. -/
def randIntStep (minv maxv : Nat) (s : Nat) : Nat × Nat :=
  let (t, s') := nextT s
  (t * (maxv - minv + 1) / U32 + minv, s')

/-- The worker-factory `shuffle` loop. -/
def fyAux : Nat → List α → Nat → List α × Nat
  | 0, res, s => (res, s)
  | i + 1, res, s =>
    let (j, s') := randIntStep 0 (i + 1) s
    fyAux i (swapIfInBounds res (i + 1) j) s'

/-- The worker-factory `shuffle`. -/
def shuffle (l : List α) (s : Nat) : List α × Nat := fyAux (l.length - 1) l s

/-- The worker `IRRegion` (no `width`/`height` fields, unlike the module). -/
structure Region where
  cells : List Cell
  bounds : Bounds
deriving DecidableEq, Repr

/-- `addToFrontier` from the worker `generateIRRegion`: bounds check, skip
cells already open, skip coordinates already present in the frontier array. -/
def addToFrontier (w h : Int) (cells : List Cell) (frontier : List Cell) (c : Cell) :
    List Cell :=
  if 0 ≤ c.1 ∧ c.1 < w ∧ 0 ≤ c.2 ∧ c.2 < h ∧ c ∉ cells ∧ c ∉ frontier then
    frontier ++ [c]
  else frontier

/-- One iteration of the worker growth loop: draw `randInt(0, len-1)`, splice
that frontier entry out, skip it if (unreachably) already open, else open it
and push its neighbors in order down, right, up, left. -/
def irStepW (w h : Int) (st : GrowState) : GrowState :=
  let idx := (randIntStep 0 (st.frontier.length - 1) st.s).1
  let s' := (randIntStep 0 (st.frontier.length - 1) st.s).2
  let cell := st.frontier.getD idx (0, 0)
  let frontier' := st.frontier.eraseIdx idx
  if cell ∈ st.cells then ⟨st.cells, frontier', s'⟩
  else
    let cells' := st.cells ++ [cell]
    let frontier'' := [((0 : Int), (1 : Int)), (1, 0), (0, -1), (-1, 0)].foldl
      (fun fr d => addToFrontier w h cells' fr (cell.1 + d.1, cell.2 + d.2)) frontier'
    ⟨cells', frontier'', s'⟩

/-- The worker growth loop (fuel as for the module loop). -/
def irLoopW (w h : Int) (target : Nat) : Nat → GrowState → GrowState
  | 0, st => st
  | fuel + 1, st =>
    if st.cells.length < target ∧ st.frontier ≠ [] then
      irLoopW w h target fuel (irStepW w h st)
    else st

/-- The worker `generateIRRegion`: same center start, frontier kept as an
array pushed in order right, left, down, up initially. -/
def generateIRRegion (w h : Int) (fillRatio : ℚ) (s : Nat) : Region × Nat :=
  let target := (⌊(w * h : Int) * fillRatio⌋).toNat
  let startX := w / 2
  let startY := h / 2
  let cells0 : List Cell := [(startX, startY)]
  let frontier0 := [((startX + 1 : Int), startY), (startX - 1, startY),
    (startX, startY + 1), (startX, startY - 1)].foldl (addToFrontier w h cells0) []
  let st := irLoopW w h target (target + 1) ⟨cells0, frontier0, s⟩
  (⟨st.cells, boundsFold w h st.cells⟩, st.s)

/-- The worker `normalizeRegion`. -/
def normalizeRegion (r : Region) : Region :=
  { cells := r.cells.map fun c => (c.1 - r.bounds.minX, c.2 - r.bounds.minY)
    bounds := ⟨0, r.bounds.maxX - r.bounds.minX, 0, r.bounds.maxY - r.bounds.minY⟩ }

/-- `MAX_DFS_CALLS` from `worker-factory.ts`. -/
def MAX_DFS_CALLS : Nat := 10000

/-- The worker DFS neighbor scan: direct membership in `region.cells`
(the worker DFS works in the region's own coordinates). -/
def dfsNeighborsW (region : Region) (visited : List Cell) (c : Cell) : List Cell :=
  [((0 : Int), (1 : Int)), (1, 0), (0, -1), (-1, 0)].foldl
    (fun acc d =>
      let n : Cell := (c.1 + d.1, c.2 + d.2)
      if n ∈ region.cells ∧ n ∉ visited then acc ++ [n] else acc)
    []

/-- The worker DFS child loop, parametrized by the recursive call. -/
def dfsWTry (rec : Cell → List Cell → List Cell → Nat → Nat →
      Bool × List Cell × List Cell × Nat × Nat)
    (cur : Cell) : List Cell → List Cell → List Cell → Nat → Nat →
    Bool × List Cell × List Cell × Nat × Nat
  | [], visited, path, s, count => (false, visited.erase cur, path.dropLast, s, count)
  | n :: rest, visited, path, s, count =>
    match rec n visited path s count with
    | (true, v', p', s', c') => (true, v', p', s', c')
    | (false, v', p', s', c') => dfsWTry rec cur rest v' p' s' c'

/-- The worker `dfs`: increments the global `dfsCallCount` on entry and gives
up (before touching `visited`/`path`) once it exceeds `MAX_DFS_CALLS`.
Fuel bounds only the depth, which never exceeds `cells.length`. -/
def dfsW (region : Region) (cells : List Cell) : Nat → Cell →
    List Cell → List Cell → Nat → Nat → Bool × List Cell × List Cell × Nat × Nat
  | 0, _, visited, path, s, count => (false, visited, path, s, count)
  | fuel + 1, cur, visited, path, s, count =>
    let count := count + 1
    if MAX_DFS_CALLS < count then (false, visited, path, s, count)
    else
      let visited' := insertUnique visited cur
      let path' := path ++ [cur]
      if path'.length = cells.length then (true, visited', path', s, count)
      else
        let nbrs := dfsNeighborsW region visited' cur
        let sh := shuffle nbrs s
        dfsWTry (dfsW region cells fuel) cur sh.1 visited' path' sh.2 count

/-- The worker candidate-start loop; `dfsCallCount` is reset to 0 for each
candidate ("Reset DFS call counter for each attempt"). -/
def tryStartsW (region : Region) (cells : List Cell) :
    List Cell → Nat → HamiltonianPath × Nat
  | [], s => (⟨[], false⟩, s)
  | st :: rest, s =>
    match dfsW region cells (cells.length + 1) st [] [] s 0 with
    | (true, _, p, s', _) => (⟨p, true⟩, s')
    | (false, _, _, s', _) => tryStartsW region cells rest s'

/-- The worker `dfsHamiltonianPath`: `prng.shuffle` of the cells, first
`min 5 n` candidates, budgeted DFS from each. -/
def dfsHamiltonianPath (region : Region) (s : Nat) : HamiltonianPath × Nat :=
  let cells := region.cells
  if cells = [] then (⟨[], false⟩, s)
  else
    let sh := shuffle cells s
    tryStartsW region cells (sh.1.take (min 5 sh.1.length)) sh.2

/-- The worker `generateHamiltonianPath`: up to `maxAttempts` (3) runs of the
DFS, each consuming fresh randomness; no strip-and-stitch strategy. -/
def hamAttempts (region : Region) : Nat → Nat → HamiltonianPath × Nat
  | 0, s => (⟨[], false⟩, s)
  | k + 1, s =>
    let r := dfsHamiltonianPath region s
    if r.1.success then r else hamAttempts region k r.2

/-- The worker `generateHamiltonianPath` entry point. -/
def generateHamiltonianPath (region : Region) (s : Nat) : HamiltonianPath × Nat :=
  hamAttempts region 3 s

/-- The worker `generateLevel`: same parameter handling as the module, but
the open mask is built from the *unnormalized* region cells, the start index
and solution come from the path translated back to original coordinates, and
the fallback `generateSimpleLevel` is textually identical to the module's
(reused here, including its PRNG calls, which compute identical values). -/
def generateLevel (params : GameParams) : Level :=
  let seed := orStrD params.seed "default"
  let s₀ := hashString seed
  let w := orIntD params.w 10
  let h := orIntD params.h 10
  let holeDensity := orQD params.hd (1 / 10)
  let mode := orIntD params.m 1
  if mode = 1 then
    let fillRatio := 1 - holeDensity
    let rg := generateIRRegion w h fillRatio s₀
    let region := rg.1
    let normalized := normalizeRegion region
    let hp := generateHamiltonianPath normalized rg.2
    let hamPath := hp.1
    if hamPath.success = false ∨ hamPath.path = [] then generateSimpleLevel params hp.2
    else
      let originalPath := hamPath.path.map fun c =>
        (c.1 + region.bounds.minX, c.2 + region.bounds.minY)
      let openM := region.cells.foldl (fun m c => maskSet m (c.2 * w + c.1) 1)
        (List.replicate (w * h).toNat 0)
      let start := originalPath.headD (0, 0)
      { v := 1, mode := mode, w := w, h := h, openMask := openM
        starts := [(0, start.2 * w + start.1)]
        solution := pathToSolution originalPath
        metrics := calculateMetrics normalized.cells hamPath.path w h
        seed := seed, params := params }
  else generateSimpleLevel params s₀

end WF

/-! ### Paint model (validator), translated from the `paint` module
(`src/unnamed/part_002`, `class PaintModel`). -/

/-- JS `Map.set`: overwrite in place if the key exists, else append. -/
def assocSet [DecidableEq κ] : List (κ × β) → κ → β → List (κ × β)
  | [], k, v => [(k, v)]
  | (k', v') :: rest, k, v =>
    if k = k' then (k, v) :: rest else (k', v') :: assocSet rest k v

/-- The `PaintModel` state: grid size, open-cell set, start and endpoint maps. -/
structure PaintModel where
  width : Int
  height : Int
  openCells : List Int
  startCells : List (Int × Nat)
  endCells : List (Int × Nat)
deriving DecidableEq, Repr

/-- The `PaintModel` constructor: collect the indices with `open[i] === 1` in
ascending order, then the start and pair maps. -/
def PaintModel.ofLevel (level : Level) : PaintModel :=
  { width := level.w
    height := level.h
    openCells := ((List.range level.openMask.length).filter
      fun i => level.openMask.getD i 0 = 1).map Int.ofNat
    startCells := level.starts.foldl (fun m st => assocSet m st.2 st.1) []
    endCells := (level.pairs.getD []).foldl
      (fun m pr => assocSet (assocSet m pr.2.1 pr.1) pr.2.2 pr.1) [] }

/-- `PaintModel.checkCoverage`: insert every cell of every supplied path into
a set and compare that set's *size* with the size of the open set. -/
def PaintModel.checkCoverage (pm : PaintModel) (paths : List (Nat × List Int)) : Bool :=
  let coveredCells := paths.foldl (fun acc p => p.2.foldl insertUnique acc) []
  coveredCells.length == pm.openCells.length

/-! ### Derived views of a `Level` used to state the claims. -/

/-- The open indices of a level: those `i` with `open[i] = 1`, ascending. -/
def openIdx (L : Level) : List Int :=
  ((List.range L.openMask.length).filter fun i => L.openMask.getD i 0 = 1).map Int.ofNat

/-- `|OpenSet|`. -/
def openCount (L : Level) : Nat := (openIdx L).length

/-- The open cells of a level in coordinate form: index `i` denotes the cell
`(i % w, i / w)`, and two indices are edge-adjacent exactly when these
coordinate pairs are 4-adjacent, so connectivity statements over `openCells`
are the index-space statements of the spec. -/
def openCells (L : Level) : List Cell :=
  (openIdx L).map fun i => (i % L.w, i / L.w)

/-- Agreement of two generation requests on
`(mode, width, height, holeDensity, K, seed)`. -/
def sameSix (p q : GameParams) : Prop :=
  p.m = q.m ∧ p.w = q.w ∧ p.h = q.h ∧ p.hd = q.hd ∧ p.k = q.k ∧ p.seed = q.seed

instance (p q : GameParams) : Decidable (sameSix p q) := by
  unfold sameSix; infer_instance

/-- The rolling hash exactly as the spec words it, modelled from the spec:
accumulate `hash = hash*31 + charCode`, wrapped to (signed) 32 bits at each
step, with the sign removed at the end. -/
def specRollingHash (s : String) : Nat :=
  (s.data.foldl (fun h c => toInt32 (h * 31 + c.toNat)) 0).natAbs

/-! ### Concrete claim inputs. -/

/-- Mode-1 request on a 3×1 grid, hole density 1/4 (dyadic, so the JS double
arithmetic for the target count is exact), seed chosen so that the first PRNG
draw selects frontier index 0 in both implementations. -/
def pDiverge : GameParams :=
  { m := some 1, w := some 3, h := some 1, hd := some (1 / 4), seed := some "seed0" }

/-- Mode-2 request (simple/fallback generator) whose shuffle opens the two
diagonal cells of a 2×2 grid. -/
def pDiag : GameParams :=
  { m := some 2, w := some 2, h := some 2, hd := some (1 / 2), seed := some "s1" }

/-- A mode-2 request with `diff = "easy"`. -/
def pEasy : GameParams :=
  { m := some 2, w := some 2, h := some 2, hd := some (1 / 2), seed := some "a",
    diff := some "easy" }

/-- The same request as `pEasy` except `diff = "hard"`; it agrees with `pEasy`
on all six generation-relevant parameters. -/
def pHard : GameParams :=
  { m := some 2, w := some 2, h := some 2, hd := some (1 / 2), seed := some "a",
    diff := some "hard" }

/-- The union of the supplied drawn paths, as a list of cell indices. -/
def pathsUnion (paths : List (Nat × List Int)) : List Int :=
  (paths.map Prod.snd).flatten

/-- The region grown by the module `generateLevel` for a mode-1 request
(the exact call it makes). -/
def mode1Region (p : GameParams) : IRRegion :=
  (generateIRRegion (orIntD p.w 10) (orIntD p.h 10) (1 - orQD p.hd (1 / 10))
    (hashString (orStrD p.seed "default"))).1

/-- The Hamiltonian path computed by the module `generateLevel` for a mode-1
request (the exact call it makes, on the normalized region with the PRNG
state left by region growth). -/
def mode1Ham (p : GameParams) : HamiltonianPath :=
  let rg := generateIRRegion (orIntD p.w 10) (orIntD p.h 10) (1 - orQD p.hd (1 / 10))
    (hashString (orStrD p.seed "default"))
  (generateHamiltonianPath (normalizeRegion rg.1) rg.2 3).1

/-- The open mask the module `generateLevel` builds for a successful mode-1
request: indices `y*w + x` of the normalized region cells set to 1. -/
def mode1Open (p : GameParams) : List Nat :=
  (normalizeRegion (mode1Region p)).cells.foldl
    (fun m c => maskSet m (c.2 * orIntD p.w 10 + c.1) 1)
    (List.replicate (orIntD p.w 10 * orIntD p.h 10).toNat 0)

/-- The invariant of the region-growth loop: the start cell is open, all open
and frontier cells are inside the rectangle, both lists are duplicate-free
and disjoint, every frontier cell touches an open cell, and every open cell
is connected to the start inside the open set. -/
def IrInv (w h : Int) (start : Cell) (st : GrowState) : Prop :=
  start ∈ st.cells ∧
    (∀ c ∈ st.cells, 0 ≤ c.1 ∧ c.1 < w ∧ 0 ≤ c.2 ∧ c.2 < h) ∧
    (∀ c ∈ st.frontier, 0 ≤ c.1 ∧ c.1 < w ∧ 0 ≤ c.2 ∧ c.2 < h) ∧
    st.cells.Nodup ∧ st.frontier.Nodup ∧
    (∀ c ∈ st.frontier, c ∉ st.cells) ∧
    (∀ f ∈ st.frontier, ∃ c ∈ st.cells, cellAdj f c) ∧
    ∀ c ∈ st.cells, connIn st.cells start c

/-- A one-open-cell level (index 0 of a 2×1 grid) used against
`checkCoverage`. -/
def lvlOneCell : Level :=
  { v := 1, mode := 1, w := 2, h := 1, openMask := [1, 0], starts := [(0, 0)],
    solution := [], metrics := ⟨1, 1 / 2, 0, 0, 0, 0⟩, seed := "x", params := {} }

/-! ### Count-instrumented copy of the module DFS (for the resource claim).
The module `dfs` in the `hamiltonian` module has no call counter and no
budget; to state how many node visits it performs, the same recursion is
repeated here with a visit counter threaded through — `dfsMCount` is `dfsM`
with `count + 1` at each entry and no other change. -/

/-- The child loop of the instrumented module DFS. -/
def dfsMCountTry (rec : Cell → List Cell → List Cell → Nat → Nat →
      Bool × List Cell × List Cell × Nat × Nat)
    (cur : Cell) : List Cell → List Cell → List Cell → Nat → Nat →
    Bool × List Cell × List Cell × Nat × Nat
  | [], visited, path, s, count => (false, visited.erase cur, path.dropLast, s, count)
  | n :: rest, visited, path, s, count =>
    match rec n visited path s count with
    | (true, v', p', s', c') => (true, v', p', s', c')
    | (false, v', p', s', c') => dfsMCountTry rec cur rest v' p' s' c'

/-- One level of the module `dfs` with a visit counter: increments on entry,
is never compared against any budget (the module has none), and otherwise
computes exactly what `dfsM` computes at this level. -/
def dfsMCountStep (region : IRRegion) (cells : List Cell)
    (rec : Cell → List Cell → List Cell → Nat → Nat →
      Bool × List Cell × List Cell × Nat × Nat)
    (cur : Cell) (visited path : List Cell) (s count : Nat) :
    Bool × List Cell × List Cell × Nat × Nat :=
  let count' := count + 1
  let visited' := insertUnique visited cur
  let path' := path ++ [cur]
  if path'.length = cells.length then (true, visited', path', s, count')
  else
    let nbrs := dfsNeighbors region visited' cur
    let sh := inlineShuffle nbrs s
    dfsMCountTry rec cur sh.1 visited' path' sh.2 count'

/-- The module `dfs` with a visit counter, as the `fuel`-fold iterate of
`dfsMCountStep` (kernel-reducible form of the same structural recursion). -/
def dfsMCount (region : IRRegion) (cells : List Cell) (fuel : Nat) :
    Cell → List Cell → List Cell → Nat → Nat →
    Bool × List Cell × List Cell × Nat × Nat :=
  Nat.rec (motive := fun _ => Cell → List Cell → List Cell → Nat → Nat →
      Bool × List Cell × List Cell × Nat × Nat)
    (fun _ visited path s count => (false, visited, path, s, count))
    (fun _ ih => dfsMCountStep region cells ih) fuel

/-- A horizontal segment region: cells `(0,0) ... (n-1,0)` in order, the value
fed to the DFS to exhibit its visit count (the claims quantify over every
region). -/
def pathCells (n : Nat) : List Cell := (List.range n).map fun i : Nat => ((i : Int), 0)

/-- The segment as an `IRRegion` (bounds already normalized). -/
def pathRegion (n : Nat) : IRRegion := ⟨pathCells n, n, 1, ⟨0, (n : Int) - 1, 0, 0⟩⟩

/-- A two-cell region whose cells are not adjacent, so the worker DFS fails
from either start (used to witness the budget theorem). -/
def wfTwoCells : WF.Region := ⟨[((0 : Int), (0 : Int)), (9, 9)], ⟨0, 9, 0, 9⟩⟩

/-! ### Share codes (`storage.ts`).  Strings are modelled as `List Char`
(`String ≅ List Char`); JS `parseInt`/`parseFloat` are modelled on the
grammar share codes can contain (optional sign, digit run, optional decimal
point; no whitespace or exponent, which never occur in a share code), with
`NaN` modelled as `none` — the generator treats a `NaN` field and an absent
field identically (both are falsy).  JS numbers are `ℚ` under the same
convention used for generation; `qToString` prints the exact finite decimal
(what JS prints for every density that is a double's shortest round-trip
value) and a `/`-marked exact fraction for rationals with no finite decimal,
which are not double values. -/

/-- The value of a digit string, most significant first. -/
def digitsToNat (ds : List Char) : Nat := ds.foldl (fun a c => a * 10 + (c.toNat - 48)) 0

/-- Decimal digits of `n`, most significant first (fuel-based division loop;
`fuel > n` suffices since `n/10 < n`). -/
def natToDigitsAux : Nat → Nat → List Char → List Char
  | 0, _, acc => acc
  | fuel + 1, n, acc =>
    if n < 10 then Char.ofNat (48 + n % 10) :: acc
    else natToDigitsAux fuel (n / 10) (Char.ofNat (48 + n % 10) :: acc)

/-- JS `${n}` for a natural number. -/
def natToString (n : Nat) : List Char := natToDigitsAux (n + 1) n []

/-- JS `${i}` for an integer. -/
def intToString (i : Int) : List Char :=
  if i < 0 then '-' :: natToString i.natAbs else natToString i.natAbs

/-- JS `parseInt(s, 10)` on share-code material: optional sign, then the
leading digit run; `none` models `NaN`. -/
def jsParseInt (s : List Char) : Option Int :=
  if s.headD ' ' = '-' then
    if (s.drop 1).takeWhile Char.isDigit = [] then none
    else some (-(digitsToNat ((s.drop 1).takeWhile Char.isDigit) : Int))
  else if s.headD ' ' = '+' then
    if (s.drop 1).takeWhile Char.isDigit = [] then none
    else some ((digitsToNat ((s.drop 1).takeWhile Char.isDigit) : Int))
  else
    if s.takeWhile Char.isDigit = [] then none
    else some ((digitsToNat (s.takeWhile Char.isDigit) : Int))

/-- JS `parseFloat(s)` on share-code material: optional sign, digit run,
optional `.` and fractional digit run; `none` models `NaN`. -/
def jsParseFloat (s : List Char) : Option ℚ :=
  let s1 := if s.headD ' ' = '-' ∨ s.headD ' ' = '+' then s.drop 1 else s
  let neg := s.headD ' ' = '-'
  let ids := s1.takeWhile Char.isDigit
  let rest := s1.dropWhile Char.isDigit
  let fds := if rest.headD ' ' = '.' then (rest.drop 1).takeWhile Char.isDigit else []
  if ids = [] ∧ fds = [] then none
  else
    let mag : ℚ := (digitsToNat ids : ℚ) + (digitsToNat fds : ℚ) / ((10 : ℚ) ^ fds.length)
    some (if neg then -mag else mag)

/-- Multiplicity of `p` in `n` (fuel-based). -/
def valAux (p : Nat) : Nat → Nat → Nat
  | 0, _ => 0
  | fuel + 1, n => if n % p = 0 ∧ 0 < n ∧ 1 < p then valAux p fuel (n / p) + 1 else 0

/-- Left-pad a digit string with zeros to width `k`. -/
def padLeftZeros (k : Nat) (ds : List Char) : List Char :=
  List.replicate (k - ds.length) '0' ++ ds

/-- JS `${x}` for a number, under the `ℚ`-as-double convention: integers
print with no decimal point; a rational with denominator `2^a·5^b` prints as
its exact (shortest) finite decimal; anything else is not a double value and
prints as an explicit fraction marker. -/
def qToString (q : ℚ) : List Char :=
  let sgn : List Char := if q < 0 then ['-'] else []
  let n := q.num.natAbs
  let d := q.den
  if d = 1 then sgn ++ natToString n
  else
    let k2 := valAux 2 d d
    let k5 := valAux 5 d d
    let k := max k2 k5
    if 2 ^ k2 * 5 ^ k5 = d then
      sgn ++ natToString (n * 10 ^ k / d / 10 ^ k) ++
        '.' :: padLeftZeros k (natToString (n * 10 ^ k / d % 10 ^ k))
    else sgn ++ natToString n ++ '/' :: natToString d

/-- JS `String.prototype.split(sep)` for a single-character separator. -/
def splitOnChar (c : Char) : List Char → List (List Char)
  | [] => [[]]
  | x :: xs =>
    if x = c then [] :: splitOnChar c xs
    else
      match splitOnChar c xs with
      | r :: rs => (x :: r) :: rs
      | [] => [[x]]

/-- JS `Array.prototype.join(sep)` for a single-character separator. -/
def joinSep (sep : Char) : List (List Char) → List Char
  | [] => []
  | [x] => x
  | x :: xs => x ++ sep :: joinSep sep xs

/-- One `if (params.x !== undefined) parts.push(`x=${...}`)` step of
`serializeShareCode`: the pushed part, if any. -/
def optPart (key : List Char) (o : Option (List Char)) : List (List Char) :=
  match o with
  | some v => [key ++ v]
  | none => []

/-- The `parts` array `serializeShareCode` pushes, in source order. -/
def partsOf (p : GameParams) : List (List Char) :=
  optPart ['v', '='] (p.v.map intToString) ++
  optPart ['m', '='] (p.m.map intToString) ++
  optPart ['w', '='] (p.w.map intToString) ++
  optPart ['h', '='] (p.h.map intToString) ++
  optPart ['k', '='] (p.k.map intToString) ++
  optPart ['h', 'd', '='] (p.hd.map qToString) ++
  optPart ['d', 'i', 'f', 'f', '='] (p.diff.map String.data) ++
  optPart ['s', 'e', 'e', 'd', '='] (p.seed.map String.data)

/-- `serializeShareCode` from `storage.ts`. -/
def serializeShareCode (p : GameParams) : List Char := '#' :: joinSep ';' (partsOf p)

/-- `const [key] = part.split('=')`. -/
def keyOf (part : List Char) : List Char := (splitOnChar '=' part).headD []

/-- `const [, value] = part.split('=')` (`[]` models `undefined`, which is
falsy exactly like the empty string). -/
def valueOf (part : List Char) : List Char := ((splitOnChar '=' part).drop 1).headD []

/-- One iteration of the `for (const part of parts)` loop of
`parseShareCode`: skip falsy keys/values, otherwise dispatch on the key. -/
def parseStep (params : GameParams) (part : List Char) : GameParams :=
  if keyOf part = [] ∨ valueOf part = [] then params
  else if keyOf part = ['v'] then { params with v := jsParseInt (valueOf part) }
  else if keyOf part = ['m'] then { params with m := jsParseInt (valueOf part) }
  else if keyOf part = ['w'] then { params with w := jsParseInt (valueOf part) }
  else if keyOf part = ['h'] then { params with h := jsParseInt (valueOf part) }
  else if keyOf part = ['k'] then { params with k := jsParseInt (valueOf part) }
  else if keyOf part = ['h', 'd'] then { params with hd := jsParseFloat (valueOf part) }
  else if keyOf part = ['d', 'i', 'f', 'f'] then
    { params with diff := some (String.mk (valueOf part)) }
  else if keyOf part = ['s', 'e', 'e', 'd'] then
    { params with seed := some (String.mk (valueOf part)) }
  else params

/-- `parseShareCode` from `storage.ts`: empty or `#`-less hashes give the
empty params, otherwise fold the key dispatch over the `;`-split parts. -/
def parseShareCode (hash : List Char) : GameParams :=
  match hash with
  | '#' :: rest => (splitOnChar ';' rest).foldl parseStep {}
  | _ => {}

/-- A params object whose seed contains the `;` separator. -/
def pSemi : GameParams := { seed := some "a;b" }

/-- A params object exercising every share-code field. -/
def pFull : GameParams :=
  { v := some 1, m := some 2, w := some 7, h := some 5, k := some 3,
    hd := some (1 / 4), diff := some "easy", seed := some "z9" }

/-! ## Theorems -/

/-! ### Arithmetic facts about the 32-bit wrap. -/

theorem toInt32_congr {a b : Int} (h : a % 2 ^ 32 = b % 2 ^ 32) : toInt32 a = toInt32 b := by
  unfold toInt32; omega

theorem toInt32_emod (a : Int) : toInt32 a % 2 ^ 32 = a % 2 ^ 32 := by
  unfold toInt32; omega

theorem hashStep_eq_spec (h : Int) (c : Nat) : hashStep h c = toInt32 (h * 31 + c) := by
  unfold hashStep
  refine toInt32_congr ?_
  have h32 := toInt32_emod (h * 32)
  omega

theorem foldl_hashStep_eq (l : List Char) (h : Int) :
    l.foldl (fun h c => hashStep h c.toNat) h
      = l.foldl (fun h c => toInt32 (h * 31 + c.toNat)) h := by
  simp only [hashStep_eq_spec]

/-! ### C5 -/

/-- C5: for every seed string, the PRNG's seed hash equals the spec's rolling
hash (`hash = hash*31 + charCode`, wrapped to signed 32 bits at each step,
sign removed at the end). -/
theorem hashString_eq_specRollingHash (s : String) : hashString s = specRollingHash s := by
  unfold hashString specRollingHash
  rw [foldl_hashStep_eq s.data 0]

/-! ### Permutation facts about the Fisher–Yates shuffle. -/

theorem set_self_of_get? {l : List α} {i : Nat} {a : α} (h : l.get? i = some a) :
    l.set i a = l := by
  induction l generalizing i with
  | nil => simp at h
  | cons x t ih =>
    cases i with
    | zero => simp_all
    | succ j => simpa using ih (by simpa using h)

theorem cons_set_perm {l : List α} {j : Nat} {b : α} (h : l.get? j = some b) (a : α) :
    List.Perm (b :: l.set j a) (a :: l) := by
  induction l generalizing j with
  | nil => simp at h
  | cons x t ih =>
    cases j with
    | zero =>
      have hb : x = b := by simpa using h
      subst hb
      simpa using List.Perm.swap a x t
    | succ j =>
      have h' : t.get? j = some b := by simpa using h
      have step1 : List.Perm (b :: x :: t.set j a) (x :: b :: t.set j a) :=
        List.Perm.swap x b _
      have step2 : List.Perm (x :: b :: t.set j a) (x :: a :: t) := (ih h').cons x
      have step3 : List.Perm (x :: a :: t) (a :: x :: t) := List.Perm.swap a x t
      simpa using (step1.trans step2).trans step3

theorem swapIfInBounds_perm (l : List α) (i j : Nat) :
    List.Perm (swapIfInBounds l i j) l := by
  unfold swapIfInBounds
  cases hi : l.get? i with
  | none => exact List.Perm.refl l
  | some a =>
    cases hj : l.get? j with
    | none => exact List.Perm.refl l
    | some b =>
      by_cases hij : i = j
      · subst hij
        have hab : a = b := by rw [hi] at hj; exact Option.some_inj.mp hj
        subst hab
        show List.Perm ((l.set i a).set i a) l
        rw [List.set_set, set_self_of_get? hi]
      · have hj' : (l.set i b).get? j = some b := by
          rw [List.get?_set_ne b l (fun h => hij h)]
          exact hj
        have h1 := cons_set_perm hj' a
        have h2 := cons_set_perm hi b
        exact (h1.trans h2).cons_inv

theorem fyAux_perm : ∀ (i : Nat) (l : List α) (s : Nat), List.Perm (fyAux i l s).1 l := by
  intro i
  induction i with
  | zero => intro l s; exact List.Perm.refl l
  | succ i ih =>
    intro l s
    simp only [fyAux]
    exact (ih _ _).trans (swapIfInBounds_perm l (i + 1) _)

/-! ### C10 -/

/-- C10: `PRNG.shuffle` returns a permutation of its input: the same elements
with the same multiplicities and the same length.  (The source copies the
input with `[...array]` before running the in-place loop, so the caller's
array is untouched; in this embedding lists are immutable, and the returned
list's relation to the input is exactly this permutation.) -/
theorem shuffle_perm [DecidableEq α] (l : List α) (s : Nat) :
    List.Perm (shuffle l s).1 l ∧ (shuffle l s).1.length = l.length ∧
      ∀ a : α, (shuffle l s).1.count a = l.count a := by
  have h : List.Perm (shuffle l s).1 l := fyAux_perm _ l s
  exact ⟨h, h.length_eq, fun a => h.count_eq a⟩

/-! ### C4 -/

unseal Rat.mul Rat.add Rat.sub Rat.inv List.merge List.mergeSort in
/-- C4 counterexample: with the same params (mode 1, 3×1 grid, hole density
1/4, seed `"seed0"`), the module implementation (`gen.worker.ts`) and the
string-embedded implementation (`worker-factory.ts`) return different Levels:
the module's open mask is `[1,1,0]` (built from the normalized region), the
embedded copy's is `[0,1,1]` (different frontier insertion order, no
strip-and-stitch strategy, and no normalization of the mask). -/
theorem module_and_embedded_levels_differ :
    (generateLevel pDiverge).openMask ≠ (WF.generateLevel pDiverge).openMask := by decide

theorem wf_fyAux_eq : ∀ (i : Nat) (l : List α) (s : Nat), WF.fyAux i l s = fyAux i l s := by
  intro i
  induction i with
  | zero => intro l s; rfl
  | succ i ih => intro l s; simp only [WF.fyAux, fyAux]; exact ih _ _

/-- C4 amended: the PRNG layer of the two copies does behave as one shared
implementation — seed hashing, the mulberry32 draw, `randInt` and `shuffle`
agree everywhere; the Level-building layers above it do not (see the
counterexample). -/
theorem prng_layers_agree :
    (∀ s : String, WF.hashString s = hashString s) ∧
      (∀ n : Nat, WF.mix n = mix n) ∧
      (∀ minv maxv s : Nat, WF.randIntStep minv maxv s = randIntStep minv maxv s) ∧
      ∀ (l : List Int) (s : Nat), WF.shuffle l s = shuffle l s :=
  ⟨fun _ => rfl, fun _ => rfl, fun _ _ _ => rfl,
    fun l s => wf_fyAux_eq (l.length - 1) l s⟩

/-! ### C1 -/

unseal Rat.mul Rat.add Rat.sub Rat.inv List.merge List.mergeSort in
/-- C1 counterexample: two requests identical in
`(mode, width, height, holeDensity, K, seed)` but with different `diff`
fields produce different Levels, because the generator embeds the whole
request object verbatim in `level.params`. -/
theorem params_echo_breaks_byte_identity :
    sameSix pEasy pHard ∧ generateLevel pEasy ≠ generateLevel pHard :=
  ⟨by decide, by decide⟩

theorem generateSimpleLevel_content (p q : GameParams) (s : Nat) (h : sameSix p q) :
    generateSimpleLevel p s = { generateSimpleLevel q s with params := p } := by
  obtain ⟨pv, pm, pw, ph, pk, phd, pdiff, pseed⟩ := p
  obtain ⟨qv, qm, qw, qh, qk, qhd, qdiff, qseed⟩ := q
  obtain ⟨h1, h2, h3, h4, h5, h6⟩ := h
  simp only at h1 h2 h3 h4 h5 h6
  subst h1 h2 h3 h4 h5 h6
  rfl

/-- C1 amended: for requests agreeing on
`(mode, width, height, holeDensity, K, seed)`, the generated Levels agree in
every field (open mask, starts, solution, metrics, seed, mode, dimensions)
except the verbatim `params` echo; full byte identity additionally needs the
whole request objects (including `v` and `diff`) to coincide. -/
theorem generateLevel_content_of_sameSix (p q : GameParams) (h : sameSix p q) :
    generateLevel p = { generateLevel q with params := p } := by
  obtain ⟨h1, h2, h3, h4, h5, h6⟩ := h
  simp only [generateLevel, h1, h2, h3, h4, h6]
  split_ifs with hmode hfail
  · exact generateSimpleLevel_content p q _ ⟨h1, h2, h3, h4, h5, h6⟩
  · rfl
  · exact generateSimpleLevel_content p q _ ⟨h1, h2, h3, h4, h5, h6⟩

unseal Rat.mul Rat.add Rat.sub Rat.inv List.merge List.mergeSort in
/-- C1 witness: the amended theorem applied to the concrete pair
`pEasy`/`pHard`, whose six generation parameters agree. -/
theorem generateLevel_content_of_sameSix_witness :
    generateLevel pEasy = { generateLevel pHard with params := pEasy } :=
  generateLevel_content_of_sameSix pEasy pHard (by decide)

/-! ### C2 counterexample -/

unseal Rat.mul Rat.add Rat.sub Rat.inv List.merge List.mergeSort in
/-- C2 counterexample: on the mode-1 request `pDiverge` the Hamiltonian
branch succeeds, yet `level.solution` is not an ordered cell-index path over
the open set: it has length 1 (a single direction code) while `|OpenSet| = 2`
— `pathToSolution` emits a direction sequence of length `|path| - 1`, not the
cells themselves. -/
theorem mode1_solution_not_cell_index_path :
    (generateLevel pDiverge).mode = 1 ∧
      (generateLevel pDiverge).solution.length ≠ openCount (generateLevel pDiverge) :=
  ⟨by decide, by decide⟩

/-! ### C3 counterexample -/

/-- Reachability inside `cells` cannot leave a set `S` that is closed under
adjacency within `cells`. -/
theorem connIn_closed {cells S : List Cell}
    (hS : ∀ a ∈ S, ∀ b ∈ cells, cellAdj a b → b ∈ S) {a b : Cell}
    (h : connIn cells a b) (ha : a ∈ S) : b ∈ S := by
  induction h with
  | refl => exact ha
  | tail _ hstep ih => exact hS _ ih _ hstep.2.1 hstep.2.2

unseal Rat.mul Rat.add Rat.sub Rat.inv List.merge List.mergeSort in
/-- C3 counterexample: the fallback generator (taken for mode 2 here, and for
mode 1 whenever Hamiltonian construction fails) opens a uniformly shuffled
set of cells; for seed `"s1"` on a 2×2 grid it opens exactly the diagonal
`{0, 3}` (cells `(0,0)` and `(1,1)`), which is not a single 4-connected
component. -/
theorem fallback_level_open_set_disconnected :
    ¬ oneComponent (openCells (generateLevel pDiag)) := by
  have hcells : openCells (generateLevel pDiag) = [((0 : Int), (0 : Int)), (1, 1)] := by decide
  rintro ⟨-, hconn⟩
  have h03 : connIn (openCells (generateLevel pDiag)) (0, 0) (1, 1) :=
    hconn (0, 0) (by rw [hcells]; simp) (1, 1) (by rw [hcells]; simp)
  rw [hcells] at h03
  have h11 : ((1 : Int), (1 : Int)) ∈ [((0 : Int), (0 : Int))] :=
    connIn_closed (by decide) h03 (by simp)
  simp at h11

/-! ### C7 -/

/-- C7 counterexample: `checkCoverage` only compares set sizes.  On a level
whose open set is `{0}`, the single path `[1]` (a closed cell!) covers one
distinct cell, so `checkCoverage` returns `true`, although the union of the
supplied paths is not the open set. -/
theorem checkCoverage_true_without_coverage :
    (PaintModel.ofLevel lvlOneCell).checkCoverage [(0, [1])] = true ∧
      (pathsUnion [(0, [1])]).toFinset ≠
        (PaintModel.ofLevel lvlOneCell).openCells.toFinset :=
  ⟨by decide, by decide⟩

theorem insertUnique_toFinset [DecidableEq α] (l : List α) (a : α) :
    (insertUnique l a).toFinset = insert a l.toFinset := by
  unfold insertUnique
  split
  · next h => exact (Finset.insert_eq_self.mpr (List.mem_toFinset.mpr h)).symm
  · next h => ext x; simp [or_comm]

theorem insertUnique_nodup [DecidableEq α] {l : List α} (h : l.Nodup) (a : α) :
    (insertUnique l a).Nodup := by
  unfold insertUnique
  split
  · exact h
  · next hna => simpa [List.nodup_append] using ⟨h, fun hx => hna hx⟩

theorem addAll_toFinset [DecidableEq α] (xs : List α) :
    ∀ acc : List α, (xs.foldl insertUnique acc).toFinset = acc.toFinset ∪ xs.toFinset := by
  induction xs with
  | nil => intro acc; simp
  | cons x xs ih =>
    intro acc
    simp only [List.foldl_cons, ih, insertUnique_toFinset, List.toFinset_cons]
    ext y
    simp

theorem addAll_nodup [DecidableEq α] (xs : List α) :
    ∀ {acc : List α}, acc.Nodup → (xs.foldl insertUnique acc).Nodup := by
  induction xs with
  | nil => intro acc h; exact h
  | cons x xs ih => intro acc h; exact ih (insertUnique_nodup h x)

theorem covered_toFinset (paths : List (Nat × List Int)) :
    ∀ acc : List Int,
      (paths.foldl (fun acc p => p.2.foldl insertUnique acc) acc).toFinset =
        acc.toFinset ∪ (pathsUnion paths).toFinset := by
  induction paths with
  | nil => intro acc; simp [pathsUnion]
  | cons p ps ih =>
    intro acc
    simp only [List.foldl_cons, ih, addAll_toFinset]
    have hu : pathsUnion (p :: ps) = p.2 ++ pathsUnion ps := by simp [pathsUnion]
    rw [hu]
    ext y
    simp [or_assoc]

theorem covered_nodup (paths : List (Nat × List Int)) :
    ∀ {acc : List Int}, acc.Nodup →
      (paths.foldl (fun acc p => p.2.foldl insertUnique acc) acc).Nodup := by
  induction paths with
  | nil => intro acc h; exact h
  | cons p ps ih => intro acc h; exact ih (addAll_nodup p.2 h)

/-- C7 amended: `checkCoverage` returns `true` iff the *number of distinct
cells* in the union of the supplied paths equals `|OpenSet|`; under the extra
hypothesis that every supplied cell is open (which the game's path capture
guarantees), this is equivalent to the union being exactly the open set. -/
theorem checkCoverage_iff (L : Level) (paths : List (Nat × List Int)) :
    ((PaintModel.ofLevel L).checkCoverage paths = true ↔
      (pathsUnion paths).toFinset.card = (PaintModel.ofLevel L).openCells.toFinset.card) ∧
      ((∀ i ∈ pathsUnion paths, i ∈ (PaintModel.ofLevel L).openCells) →
        ((PaintModel.ofLevel L).checkCoverage paths = true ↔
          (pathsUnion paths).toFinset = (PaintModel.ofLevel L).openCells.toFinset)) := by
  have hopen_nodup : (PaintModel.ofLevel L).openCells.Nodup := by
    simp only [PaintModel.ofLevel]
    exact ((List.nodup_range _).filter _).map (fun a b => Int.ofNat.inj)
  have hcov : (paths.foldl (fun acc p => p.2.foldl insertUnique acc) []).toFinset =
      (pathsUnion paths).toFinset := by
    rw [covered_toFinset paths []]; simp
  have hcovn : (paths.foldl (fun acc p => p.2.foldl insertUnique acc) []).Nodup :=
    covered_nodup paths List.nodup_nil
  have hlen : (paths.foldl (fun acc p => p.2.foldl insertUnique acc) []).length =
      (pathsUnion paths).toFinset.card := by
    rw [← hcov, List.toFinset_card_of_nodup hcovn]
  have hopenlen : (PaintModel.ofLevel L).openCells.length =
      (PaintModel.ofLevel L).openCells.toFinset.card := by
    rw [List.toFinset_card_of_nodup hopen_nodup]
  have hmain : (PaintModel.ofLevel L).checkCoverage paths = true ↔
      (pathsUnion paths).toFinset.card = (PaintModel.ofLevel L).openCells.toFinset.card := by
    unfold PaintModel.checkCoverage
    rw [beq_iff_eq, hlen, hopenlen]
  refine ⟨hmain, fun hsub => hmain.trans ⟨fun hcard => ?_, fun he => by rw [he]⟩⟩
  have hss : (pathsUnion paths).toFinset ⊆ (PaintModel.ofLevel L).openCells.toFinset := by
    intro x hx
    exact List.mem_toFinset.mpr (hsub x (List.mem_toFinset.mp hx))
  exact Finset.eq_of_subset_of_card_le hss (le_of_eq hcard.symm)

/-- C7 witness: the amended equivalence applied to the one-cell level and the
path `[0]`, whose cells are all open. -/
theorem checkCoverage_iff_witness :
    (∀ i ∈ pathsUnion [(0, [0])], i ∈ (PaintModel.ofLevel lvlOneCell).openCells) ∧
      ((PaintModel.ofLevel lvlOneCell).checkCoverage [(0, [0])] = true ↔
        (pathsUnion [(0, [0])]).toFinset =
          (PaintModel.ofLevel lvlOneCell).openCells.toFinset) :=
  ⟨by decide, (checkCoverage_iff lvlOneCell [(0, [0])]).2 (by decide)⟩

/-! ### C6: region growth invariants -/

theorem mix_lt (s : Nat) : mix s < U32 := by
  have hU : (0 : Nat) < U32 := by decide
  have hmod : ∀ a : Nat, a % U32 < U32 := fun a => Nat.mod_lt _ hU
  have hxor : ∀ a b : Nat, a < U32 → b < U32 → a ^^^ b < U32 := by
    intro a b ha hb
    have h32 : (U32 : Nat) = 2 ^ 32 := by decide
    rw [h32] at ha hb ⊢
    exact Nat.xor_lt_two_pow ha hb
  have hshift : ∀ a k : Nat, a < U32 → a >>> k < U32 := by
    intro a k ha
    calc a >>> k ≤ a := by
          rw [Nat.shiftRight_eq_div_pow]
          exact Nat.div_le_self a _
      _ < U32 := ha
  simp only [mix]
  exact hxor _ _ (hxor _ _ (hmod _) (hmod _))
    (hshift _ _ (hxor _ _ (hmod _) (hmod _)))

theorem randFloorStep_lt {n s : Nat} (hn : 0 < n) : (randFloorStep n s).1 < n := by
  have ht : mix (s + MB) < U32 := mix_lt _
  have hU : (0 : Nat) < U32 := by decide
  show mix (s + MB) * n / U32 < n
  rw [Nat.div_lt_iff_lt_mul hU]
  calc mix (s + MB) * n < U32 * n := (Nat.mul_lt_mul_right hn).mpr ht
    _ = n * U32 := Nat.mul_comm _ _

theorem getD_mem_of_lt {l : List α} {i : Nat} (h : i < l.length) (d : α) : l.getD i d ∈ l := by
  have he : l.getD i d = l.get ⟨i, h⟩ := by
    simp [List.getD_eq_getElem?_getD, List.getElem?_eq_getElem h]
  rw [he]
  exact List.get_mem l i h

theorem cellAdj_symm {a b : Cell} (h : cellAdj a b) : cellAdj b a := by
  unfold cellAdj at h ⊢
  omega

theorem connIn_mono {c1 c2 : List Cell} (hsub : ∀ x ∈ c1, x ∈ c2) {a b : Cell} :
    connIn c1 a b → connIn c2 a b :=
  Relation.ReflTransGen.mono fun _ _ h => ⟨hsub _ h.1, hsub _ h.2.1, h.2.2⟩

theorem connIn_symm {cells : List Cell} : Symmetric (connIn cells) :=
  Relation.ReflTransGen.symmetric fun _ _ h => ⟨h.2.1, h.1, cellAdj_symm h.2.2⟩

/-- Membership after one conditional frontier push. -/
theorem frontStep_mem {w h : Int} {cells : List Cell} (fr : List Cell) (cx cy : Int)
    (x : Cell) :
    (x ∈ (if 0 ≤ cx ∧ cx < w ∧ 0 ≤ cy ∧ cy < h ∧ (cx, cy) ∉ cells ∧ (cx, cy) ∉ fr
        then fr ++ [(cx, cy)] else fr))
      ↔ (x ∈ fr ∨ (x = (cx, cy) ∧ 0 ≤ cx ∧ cx < w ∧ 0 ≤ cy ∧ cy < h ∧ (cx, cy) ∉ cells)) := by
  split
  · next hc =>
    simp only [List.mem_append, List.mem_singleton]
    exact ⟨fun hx => hx.imp id fun he => ⟨he, hc.1, hc.2.1, hc.2.2.1, hc.2.2.2.1, hc.2.2.2.2.1⟩,
      fun hx => hx.imp id fun he => he.1⟩
  · next hc =>
    constructor
    · exact Or.inl
    · rintro (hx | ⟨rfl, h1, h2, h3, h4, h5⟩)
      · exact hx
      · by_contra hxf
        exact hc ⟨h1, h2, h3, h4, h5, hxf⟩

theorem frontStep_nodup {w h : Int} {cells : List Cell} {fr : List Cell} (hn : fr.Nodup)
    (cx cy : Int) :
    (if 0 ≤ cx ∧ cx < w ∧ 0 ≤ cy ∧ cy < h ∧ (cx, cy) ∉ cells ∧ (cx, cy) ∉ fr
      then fr ++ [(cx, cy)] else fr).Nodup := by
  split
  · next hc => simpa [List.nodup_append] using ⟨hn, fun hx => hc.2.2.2.2.2 hx⟩
  · exact hn

theorem addNeighborsToFrontier_mem {x0 y0 w h : Int} {cells fr : List Cell} {x : Cell} :
    x ∈ addNeighborsToFrontier x0 y0 w h cells fr ↔
      x ∈ fr ∨ (x ∈ [((x0 - 1 : Int), y0), (x0 + 1, y0), (x0, y0 - 1), (x0, y0 + 1)] ∧
        0 ≤ x.1 ∧ x.1 < w ∧ 0 ≤ x.2 ∧ x.2 < h ∧ x ∉ cells) := by
  unfold addNeighborsToFrontier
  simp only [List.foldl_cons, List.foldl_nil]
  rw [frontStep_mem, frontStep_mem, frontStep_mem, frontStep_mem]
  constructor
  · rintro ((((hfr | ⟨rfl, hq⟩) | ⟨rfl, hq⟩) | ⟨rfl, hq⟩) | ⟨rfl, hq⟩)
    · exact Or.inl hfr
    all_goals exact Or.inr ⟨by simp, hq⟩
  · rintro (hfr | ⟨hmem, hq⟩)
    · exact Or.inl (Or.inl (Or.inl (Or.inl hfr)))
    · simp only [List.mem_cons, List.mem_singleton, List.not_mem_nil, or_false] at hmem
      rcases hmem with rfl | rfl | rfl | rfl
      · exact Or.inl (Or.inl (Or.inl (Or.inr ⟨rfl, hq⟩)))
      · exact Or.inl (Or.inl (Or.inr ⟨rfl, hq⟩))
      · exact Or.inl (Or.inr ⟨rfl, hq⟩)
      · exact Or.inr ⟨rfl, hq⟩

theorem addNeighborsToFrontier_nodup {x0 y0 w h : Int} {cells fr : List Cell}
    (hn : fr.Nodup) : (addNeighborsToFrontier x0 y0 w h cells fr).Nodup := by
  unfold addNeighborsToFrontier
  simp only [List.foldl_cons, List.foldl_nil]
  exact frontStep_nodup (frontStep_nodup (frontStep_nodup (frontStep_nodup hn _ _) _ _) _ _) _ _

theorem neighbor_adj {x0 y0 : Int} {x : Cell}
    (hmem : x ∈ [((x0 - 1 : Int), y0), (x0 + 1, y0), (x0, y0 - 1), (x0, y0 + 1)]) :
    cellAdj x (x0, y0) := by
  simp only [List.mem_cons, List.mem_singleton, List.not_mem_nil, or_false] at hmem
  rcases hmem with rfl | rfl | rfl | rfl <;> (unfold cellAdj; dsimp only; omega)

theorem irStep_inv {w h : Int} {start : Cell} {st : GrowState}
    (hfr : st.frontier ≠ []) (hinv : IrInv w h start st) :
    IrInv w h start (irStep w h st) := by
  obtain ⟨hstart, hcellsR, hfrR, hcn, hfn, hdisj, hadj, hconn⟩ := hinv
  have hlen : 0 < st.frontier.length := List.length_pos.mpr hfr
  have hidx : (randFloorStep st.frontier.length st.s).1 < st.frontier.length :=
    randFloorStep_lt hlen
  set cell := st.frontier.getD (randFloorStep st.frontier.length st.s).1 (0, 0) with hcell
  have hcellmem : cell ∈ st.frontier := getD_mem_of_lt hidx _
  have hcellnot : cell ∉ st.cells := hdisj _ hcellmem
  have hins : insertUnique st.cells cell = st.cells ++ [cell] := by
    unfold insertUnique
    rw [if_neg hcellnot]
  have hcells' : ∀ x, x ∈ insertUnique st.cells cell ↔ x ∈ st.cells ∨ x = cell := by
    intro x
    rw [hins]
    simp
  have hsub : ∀ x ∈ st.cells, x ∈ insertUnique st.cells cell := fun x hx =>
    (hcells' x).mpr (Or.inl hx)
  have hce : ∀ x, x ∈ st.frontier.erase cell ↔ x ≠ cell ∧ x ∈ st.frontier :=
    fun x => List.Nodup.mem_erase_iff hfn
  obtain ⟨c0, hc0mem, hc0adj⟩ := hadj cell hcellmem
  have hcellconn : connIn (insertUnique st.cells cell) start cell := by
    refine Relation.ReflTransGen.tail (connIn_mono hsub (hconn c0 hc0mem)) ?_
    exact ⟨(hcells' c0).mpr (Or.inl hc0mem), (hcells' cell).mpr (Or.inr rfl),
      cellAdj_symm hc0adj⟩
  show IrInv w h start ⟨insertUnique st.cells cell,
    addNeighborsToFrontier cell.1 cell.2 w h (insertUnique st.cells cell)
      (st.frontier.erase cell), (randFloorStep st.frontier.length st.s).2⟩
  refine ⟨hsub start hstart, ?_, ?_, ?_, ?_, ?_, ?_, ?_⟩
  · intro c hc
    rcases (hcells' c).mp hc with hcl | rfl
    · exact hcellsR c hcl
    · exact hfrR _ hcellmem
  · intro c hc
    rcases addNeighborsToFrontier_mem.mp hc with hold | ⟨_, hq⟩
    · exact hfrR _ ((hce c).mp hold).2
    · exact ⟨hq.1, hq.2.1, hq.2.2.1, hq.2.2.2.1⟩
  · rw [hins]
    simpa [List.nodup_append] using ⟨hcn, fun hx => hcellnot hx⟩
  · exact addNeighborsToFrontier_nodup (hfn.erase cell)
  · intro c hc
    rcases addNeighborsToFrontier_mem.mp hc with hold | ⟨_, hq⟩
    · obtain ⟨hne, hmem⟩ := (hce c).mp hold
      intro hcl
      rcases (hcells' c).mp hcl with hcl' | rfl
      · exact hdisj c hmem hcl'
      · exact hne rfl
    · exact hq.2.2.2.2
  · intro f hf
    rcases addNeighborsToFrontier_mem.mp hf with hold | ⟨hmem, _⟩
    · obtain ⟨c1, hc1, hc1adj⟩ := hadj f ((hce f).mp hold).2
      exact ⟨c1, hsub _ hc1, hc1adj⟩
    · exact ⟨cell, (hcells' cell).mpr (Or.inr rfl), neighbor_adj hmem⟩
  · intro c hc
    rcases (hcells' c).mp hc with hcl | rfl
    · exact connIn_mono hsub (hconn c hcl)
    · exact hcellconn

theorem irLoop_inv {w h : Int} {start : Cell} {target : Nat} :
    ∀ (fuel : Nat) (st : GrowState), IrInv w h start st →
      IrInv w h start (irLoop w h target fuel st) := by
  intro fuel
  induction fuel with
  | zero => intro st hinv; exact hinv
  | succ fuel ih =>
    intro st hinv
    unfold irLoop
    split
    · next hcond => exact ih _ (irStep_inv hcond.2 hinv)
    · exact hinv

theorem generateIRRegion_inv {w h : Int} (hw : 1 ≤ w) (hh : 1 ≤ h) (fillRatio : ℚ)
    (s : Nat) : IrInv w h (w / 2, h / 2)
      ⟨(generateIRRegion w h fillRatio s).1.cells, [], 0⟩ ∧
      (w / 2, h / 2) ∈ (generateIRRegion w h fillRatio s).1.cells := by
  have hsx : 0 ≤ w / 2 ∧ w / 2 < w := by omega
  have hsy : 0 ≤ h / 2 ∧ h / 2 < h := by omega
  have hinit : IrInv w h (w / 2, h / 2)
      ⟨[(w / 2, h / 2)],
        addNeighborsToFrontier (w / 2) (h / 2) w h [(w / 2, h / 2)] [], s⟩ := by
    refine ⟨by simp, ?_, ?_, by simp, ?_, ?_, ?_, ?_⟩
    · intro c hc
      simp only [List.mem_singleton] at hc
      subst hc
      exact ⟨hsx.1, hsx.2, hsy.1, hsy.2⟩
    · intro c hc
      rcases addNeighborsToFrontier_mem.mp hc with hold | ⟨_, hq⟩
      · simp at hold
      · exact ⟨hq.1, hq.2.1, hq.2.2.1, hq.2.2.2.1⟩
    · exact addNeighborsToFrontier_nodup List.nodup_nil
    · intro c hc
      rcases addNeighborsToFrontier_mem.mp hc with hold | ⟨_, hq⟩
      · simp at hold
      · exact hq.2.2.2.2
    · intro f hf
      rcases addNeighborsToFrontier_mem.mp hf with hold | ⟨hmem, _⟩
      · simp at hold
      · exact ⟨(w / 2, h / 2), by simp, neighbor_adj hmem⟩
    · intro c hc
      simp only [List.mem_singleton] at hc
      subst hc
      exact Relation.ReflTransGen.refl
  have hfin := @irLoop_inv w h (w / 2, h / 2) (⌊(w * h : Int) * fillRatio⌋).toNat
    ((⌊(w * h : Int) * fillRatio⌋).toNat + 1) _ hinit
  obtain ⟨h1, h2, h3, h4, h5, h6, h7, h8⟩ := hfin
  exact ⟨⟨h1, h2, fun c hc => absurd hc (List.not_mem_nil c), h4, List.nodup_nil,
    fun c hc => absurd hc (List.not_mem_nil c),
    fun f hf => absurd hf (List.not_mem_nil f), h8⟩, h1⟩

/-- C6: for every width `w ≥ 1`, height `h ≥ 1`, fill ratio and PRNG state,
the cell set returned by `generateIRRegion` is non-empty, lies inside the
`w × h` rectangle, and forms a single 4-connected component (growth only ever
opens frontier cells adjacent to already-open cells). -/
theorem generateIRRegion_props (w h : Int) (hw : 1 ≤ w) (hh : 1 ≤ h) (fillRatio : ℚ)
    (s : Nat) :
    (generateIRRegion w h fillRatio s).1.cells ≠ [] ∧
      (∀ c ∈ (generateIRRegion w h fillRatio s).1.cells,
        0 ≤ c.1 ∧ c.1 < w ∧ 0 ≤ c.2 ∧ c.2 < h) ∧
      oneComponent (generateIRRegion w h fillRatio s).1.cells := by
  obtain ⟨⟨hstart, hrect, -, -, -, -, -, hconn⟩, hmem⟩ :=
    generateIRRegion_inv hw hh fillRatio s
  refine ⟨fun hnil => by rw [hnil] at hmem; exact absurd hmem (List.not_mem_nil _),
    hrect, fun hnil => by rw [hnil] at hmem; exact absurd hmem (List.not_mem_nil _),
    fun a ha b hb => ?_⟩
  exact (connIn_symm (hconn a ha)).trans (hconn b hb)

/-- C6 witness: the theorem applied to a concrete 3×3 request. -/
theorem generateIRRegion_props_witness :
    (generateIRRegion 3 3 (1 / 2) 7).1.cells ≠ [] ∧
      (∀ c ∈ (generateIRRegion 3 3 (1 / 2) 7).1.cells,
        0 ≤ c.1 ∧ c.1 < 3 ∧ 0 ≤ c.2 ∧ c.2 < 3) ∧
      oneComponent (generateIRRegion 3 3 (1 / 2) 7).1.cells :=
  generateIRRegion_props 3 3 (by norm_num) (by norm_num) (1 / 2) 7

/-! ### Hamiltonian-path machinery: the strip-and-stitch path is a
permutation of the cells, and the DFS path likewise on success. -/

theorem pathToSolution_length : ∀ l : List Cell, (pathToSolution l).length = l.length - 1 := by
  intro l
  match l with
  | [] => rfl
  | [a] => rfl
  | a :: b :: rest =>
    have ih := pathToSolution_length (b :: rest)
    simp only [pathToSolution, List.length_cons] at ih ⊢
    omega

theorem pathToSolution_lt_four : ∀ (l : List Cell), ∀ d ∈ pathToSolution l, d < 4 := by
  intro l
  match l with
  | [] => intro d hd; simp [pathToSolution] at hd
  | [a] => intro d hd; simp [pathToSolution] at hd
  | a :: b :: rest =>
    intro d hd
    simp only [pathToSolution, List.mem_cons] at hd
    rcases hd with rfl | hd
    · split
      · omega
      · split
        · omega
        · split <;> omega
    · exact pathToSolution_lt_four (b :: rest) d hd

theorem inlineShuffleAux_perm : ∀ (i : Nat) (l : List α) (s : Nat),
    List.Perm (inlineShuffleAux i l s).1 l := by
  intro i
  induction i with
  | zero => intro l s; exact List.Perm.refl l
  | succ i ih =>
    intro l s
    simp only [inlineShuffleAux]
    exact (ih _ _).trans (swapIfInBounds_perm l (i + 1) _)

theorem inlineShuffle_perm (l : List α) (s : Nat) : List.Perm (inlineShuffle l s).1 l :=
  inlineShuffleAux_perm _ l s

theorem perm_flatten_of_perm {l₁ l₂ : List (List α)} (h : List.Perm l₁ l₂) :
    List.Perm l₁.flatten l₂.flatten := by
  induction h with
  | nil => exact List.Perm.refl _
  | cons x _ ih => simpa only [List.flatten_cons] using ih.append_left x
  | swap x y l =>
    simp only [List.flatten_cons]
    have h1 : List.Perm (y ++ x ++ l.flatten) (x ++ y ++ l.flatten) :=
      List.Perm.append_right l.flatten List.perm_append_comm
    simpa only [List.append_assoc] using h1
  | trans _ _ ih1 ih2 => exact ih1.trans ih2

theorem stitch_perm : ∀ (l : List (List Cell)) (rev : Bool),
    List.Perm (stitch l rev) l.flatten := by
  intro l
  induction l with
  | nil => intro rev; exact List.Perm.refl _
  | cons strip rest ih =>
    intro rev
    simp only [stitch, List.flatten_cons]
    refine List.Perm.append ?_ (ih (!rev))
    split
    · exact List.reverse_perm strip
    · exact List.Perm.refl strip

theorem flatten_map_perm {f g : β → List α} (hfg : ∀ x, List.Perm (f x) (g x)) :
    ∀ l : List β, List.Perm (l.map f).flatten (l.map g).flatten := by
  intro l
  induction l with
  | nil => exact List.Perm.refl _
  | cons x rest ih =>
    simp only [List.map_cons, List.flatten_cons]
    exact (hfg x).append ih

theorem addToStrip_flatten_perm (c : Cell) : ∀ strips : List (Int × List Cell),
    List.Perm ((addToStrip strips c).map Prod.snd).flatten
      ((strips.map Prod.snd).flatten ++ [c]) := by
  intro strips
  induction strips with
  | nil => simp [addToStrip]
  | cons p rest ih =>
    obtain ⟨y, strip⟩ := p
    simp only [addToStrip]
    split
    · simp only [List.map_cons, List.flatten_cons]
      have h1 : List.Perm ([c] ++ (rest.map Prod.snd).flatten)
          ((rest.map Prod.snd).flatten ++ [c]) := List.perm_append_comm
      have h2 := h1.append_left strip
      simpa only [List.append_assoc] using h2
    · simp only [List.map_cons, List.flatten_cons]
      have h2 := ih.append_left strip
      simpa only [List.append_assoc] using h2

theorem stripsOf_flatten_perm (cells : List Cell) :
    List.Perm ((stripsOf cells).map Prod.snd).flatten cells := by
  suffices h : ∀ (cs : List Cell) (strips : List (Int × List Cell)),
      List.Perm ((cs.foldl addToStrip strips).map Prod.snd).flatten
        ((strips.map Prod.snd).flatten ++ cs) by
    simpa using h cells []
  intro cs
  induction cs with
  | nil => intro strips; simp
  | cons c cs ih =>
    intro strips
    simp only [List.foldl_cons]
    refine (ih (addToStrip strips c)).trans ?_
    refine ((addToStrip_flatten_perm c strips).append_right cs).trans ?_
    simp [List.append_assoc]

theorem sortedStrips_flatten_perm (cells : List Cell) :
    List.Perm (((stripsOf cells).mergeSort fun a b => decide (a.1 ≤ b.1)).map fun p =>
      p.2.mergeSort fun a b => decide (a.1 ≤ b.1)).flatten cells := by
  have h1 := flatten_map_perm (g := Prod.snd)
    (fun p : Int × List Cell => List.mergeSort_perm p.2 fun a b => decide (a.1 ≤ b.1))
    ((stripsOf cells).mergeSort fun a b => decide (a.1 ≤ b.1))
  have h2 := perm_flatten_of_perm
    ((List.mergeSort_perm (stripsOf cells) fun a b => decide (a.1 ≤ b.1)).map Prod.snd)
  exact (h1.trans h2).trans (stripsOf_flatten_perm cells)

/-- The cell list that both Hamiltonian strategies extract from a region
(the `Array.from(region.cells).map` with the bounds offset). -/
theorem cellsList_normalized (r : IRRegion) :
    ((normalizeRegion r).cells.map fun c => (c.1 - (normalizeRegion r).bounds.minX,
      c.2 - (normalizeRegion r).bounds.minY)) = (normalizeRegion r).cells := by
  simp [normalizeRegion]

theorem stripAndStitch_success {region : IRRegion}
    (h : (stripAndStitch region).success = true) :
    List.Perm (stripAndStitch region).path
      (region.cells.map fun c => (c.1 - region.bounds.minX, c.2 - region.bounds.minY)) ∧
      chainAdj (stripAndStitch region).path = true := by
  unfold stripAndStitch at h ⊢
  dsimp only at h ⊢
  split at h
  · simp at h
  · next hne =>
    split at h
    · next hcond =>
      rw [if_neg hne, if_pos hcond]
      exact ⟨(stitch_perm _ false).trans (sortedStrips_flatten_perm _), hcond.2⟩
    · simp at h

theorem chainAdj_snoc : ∀ (l : List Cell) (a b : Cell),
    chainAdj (l ++ [a]) = true → cellAdj a b → chainAdj ((l ++ [a]) ++ [b]) = true := by
  intro l
  induction l with
  | nil =>
    intro a b _ hadj
    simp only [List.nil_append, chainAdj, Bool.and_eq_true, decide_eq_true_eq]
    exact ⟨hadj, trivial⟩
  | cons x l' ih =>
    intro a b h hadj
    cases l' with
    | nil =>
      simp only [List.cons_append, List.nil_append, chainAdj, Bool.and_eq_true,
        decide_eq_true_eq] at h ⊢
      exact ⟨h.1, hadj, trivial⟩
    | cons y l'' =>
      simp only [List.cons_append, chainAdj, Bool.and_eq_true] at h ⊢
      exact ⟨h.1, by simpa only [List.cons_append] using ih a b (by simpa using h.2) hadj⟩

theorem guardAppend_sub {P : Cell → Prop} {acc : List Cell} {guard : Prop}
    [Decidable guard] {n : Cell} (hacc : ∀ x ∈ acc, P x) (hnew : guard → P n) :
    ∀ x ∈ (if guard then acc ++ [n] else acc), P x := by
  intro x hx
  split at hx
  · next hg =>
    rcases List.mem_append.mp hx with hxa | hxn
    · exact hacc x hxa
    · rw [List.mem_singleton.mp hxn]; exact hnew hg
  · exact hacc x hx

theorem dfsNeighbors_sub (region : IRRegion) (visited : List Cell) (c : Cell) :
    ∀ x ∈ dfsNeighbors region visited c,
      (x.1 + region.bounds.minX, x.2 + region.bounds.minY) ∈ region.cells ∧
        x ∉ visited ∧ cellAdj c x := by
  unfold dfsNeighbors
  simp only [List.foldl_cons, List.foldl_nil]
  refine guardAppend_sub (guardAppend_sub (guardAppend_sub (guardAppend_sub
    (fun x hx => absurd hx (List.not_mem_nil x)) ?_) ?_) ?_) ?_ <;>
    (intro hg; refine ⟨hg.1, hg.2, ?_⟩; unfold cellAdj; dsimp only; omega)

/-- Soundness of the module DFS: on success the final path is duplicate-free,
covers exactly `cells.length` cells all taken from `cells`, and is a 4-chain;
on failure `visited` and `path` are restored exactly. -/
theorem dfsM_spec (region : IRRegion) (cells : List Cell) :
    ∀ (fuel : Nat) (cur : Cell) (visited path : List Cell) (s : Nat),
      cur ∈ cells → cur ∉ visited →
      (∀ x, x ∈ visited ↔ x ∈ path) → path.Nodup →
      (∀ x ∈ path, x ∈ cells) →
      (∀ x, (x ∈ cells ↔ (x.1 + region.bounds.minX, x.2 + region.bounds.minY) ∈ region.cells)) →
      chainAdj (path ++ [cur]) = true →
      (((dfsM region cells fuel cur visited path s).1 = true →
          (dfsM region cells fuel cur visited path s).2.2.1.Nodup ∧
          (dfsM region cells fuel cur visited path s).2.2.1.length = cells.length ∧
          (∀ x ∈ (dfsM region cells fuel cur visited path s).2.2.1, x ∈ cells) ∧
          chainAdj (dfsM region cells fuel cur visited path s).2.2.1 = true) ∧
        ((dfsM region cells fuel cur visited path s).1 = false →
          (dfsM region cells fuel cur visited path s).2.1 = visited ∧
          (dfsM region cells fuel cur visited path s).2.2.1 = path)) := by
  intro fuel
  induction fuel with
  | zero =>
    intro cur visited path s _ _ _ _ _ _ _
    exact ⟨fun h => by simp [dfsM] at h, fun _ => ⟨rfl, rfl⟩⟩
  | succ fuel ih =>
    intro cur visited path s hcur hnvis hvis hnodup hsub hagree hchain
    have hins : insertUnique visited cur = visited ++ [cur] := by
      unfold insertUnique; rw [if_neg hnvis]
    have hnpath : cur ∉ path := fun hp => hnvis ((hvis cur).mpr hp)
    have hvis' : ∀ x, x ∈ visited ++ [cur] ↔ x ∈ path ++ [cur] := by
      intro x; simp [hvis x]
    have hnodup' : (path ++ [cur]).Nodup := by
      simpa [List.nodup_append] using ⟨hnodup, fun hx => hnpath hx⟩
    have hsub' : ∀ x ∈ path ++ [cur], x ∈ cells := by
      intro x hx
      rcases List.mem_append.mp hx with hxa | hxn
      · exact hsub x hxa
      · rw [List.mem_singleton.mp hxn]; exact hcur
    simp only [dfsM, hins]
    split
    · next hlen =>
      exact ⟨fun _ => ⟨hnodup', by simpa using hlen, hsub', hchain⟩,
        fun hfalse => by simp at hfalse⟩
    · next hlen =>
      -- the children loop
      have hshuf := inlineShuffle_perm
        (dfsNeighbors region (visited ++ [cur]) cur)
        s
      set nbrs := (inlineShuffle (dfsNeighbors region (visited ++ [cur]) cur) s).1 with hnbrs
      have hnprops : ∀ n ∈ nbrs, n ∈ cells ∧ n ∉ visited ++ [cur] ∧ cellAdj cur n := by
        intro n hn
        have hmem := dfsNeighbors_sub region (visited ++ [cur]) cur n (hshuf.mem_iff.mp hn)
        exact ⟨(hagree n).mpr hmem.1, hmem.2.1, hmem.2.2⟩
      -- inner induction over the (shuffled) neighbor list
      suffices hloop : ∀ (ns : List Cell), (∀ n ∈ ns, n ∈ cells ∧ n ∉ visited ++ [cur] ∧ cellAdj cur n) →
          ((dfsMTry (dfsM region cells fuel) cur ns (visited ++ [cur]) (path ++ [cur])
              (inlineShuffle (dfsNeighbors region (visited ++ [cur]) cur) s).2).1 = true →
            (dfsMTry (dfsM region cells fuel) cur ns (visited ++ [cur]) (path ++ [cur])
              (inlineShuffle (dfsNeighbors region (visited ++ [cur]) cur) s).2).2.2.1.Nodup ∧
            (dfsMTry (dfsM region cells fuel) cur ns (visited ++ [cur]) (path ++ [cur])
              (inlineShuffle (dfsNeighbors region (visited ++ [cur]) cur) s).2).2.2.1.length = cells.length ∧
            (∀ x ∈ (dfsMTry (dfsM region cells fuel) cur ns (visited ++ [cur]) (path ++ [cur])
              (inlineShuffle (dfsNeighbors region (visited ++ [cur]) cur) s).2).2.2.1, x ∈ cells) ∧
            chainAdj (dfsMTry (dfsM region cells fuel) cur ns (visited ++ [cur]) (path ++ [cur])
              (inlineShuffle (dfsNeighbors region (visited ++ [cur]) cur) s).2).2.2.1 = true) ∧
          ((dfsMTry (dfsM region cells fuel) cur ns (visited ++ [cur]) (path ++ [cur])
              (inlineShuffle (dfsNeighbors region (visited ++ [cur]) cur) s).2).1 = false →
            (dfsMTry (dfsM region cells fuel) cur ns (visited ++ [cur]) (path ++ [cur])
              (inlineShuffle (dfsNeighbors region (visited ++ [cur]) cur) s).2).2.1 = visited ∧
            (dfsMTry (dfsM region cells fuel) cur ns (visited ++ [cur]) (path ++ [cur])
              (inlineShuffle (dfsNeighbors region (visited ++ [cur]) cur) s).2).2.2.1 = path) by
        exact hloop nbrs hnprops
      -- generalize the state threaded through the loop
      have hgen : ∀ (ns : List Cell) (s0 : Nat),
          (∀ n ∈ ns, n ∈ cells ∧ n ∉ visited ++ [cur] ∧ cellAdj cur n) →
          ((dfsMTry (dfsM region cells fuel) cur ns (visited ++ [cur]) (path ++ [cur]) s0).1 = true →
            (dfsMTry (dfsM region cells fuel) cur ns (visited ++ [cur]) (path ++ [cur]) s0).2.2.1.Nodup ∧
            (dfsMTry (dfsM region cells fuel) cur ns (visited ++ [cur]) (path ++ [cur]) s0).2.2.1.length = cells.length ∧
            (∀ x ∈ (dfsMTry (dfsM region cells fuel) cur ns (visited ++ [cur]) (path ++ [cur]) s0).2.2.1, x ∈ cells) ∧
            chainAdj (dfsMTry (dfsM region cells fuel) cur ns (visited ++ [cur]) (path ++ [cur]) s0).2.2.1 = true) ∧
          ((dfsMTry (dfsM region cells fuel) cur ns (visited ++ [cur]) (path ++ [cur]) s0).1 = false →
            (dfsMTry (dfsM region cells fuel) cur ns (visited ++ [cur]) (path ++ [cur]) s0).2.1 = visited ∧
            (dfsMTry (dfsM region cells fuel) cur ns (visited ++ [cur]) (path ++ [cur]) s0).2.2.1 = path) := by
        intro ns
        induction ns with
        | nil =>
          intro s0 _
          refine ⟨fun htrue => by simp [dfsMTry] at htrue, fun _ => ?_⟩
          constructor
          · show (visited ++ [cur]).erase cur = visited
            rw [List.erase_append_right _ hnvis]
            simp
          · show (path ++ [cur]).dropLast = path
            exact List.dropLast_concat
        | cons n rest ihn =>
          intro s0 hns
          obtain ⟨hn_cells, hn_nvis, hn_adj⟩ := hns n (List.mem_cons_self n rest)
          have hchild := ih n (visited ++ [cur]) (path ++ [cur]) s0 hn_cells hn_nvis
            hvis' hnodup' hsub' hagree (chainAdj_snoc path cur n hchain hn_adj)
          simp only [dfsMTry]
          rcases hres : dfsM region cells fuel n (visited ++ [cur]) (path ++ [cur]) s0 with
            ⟨b, v', p', s'⟩
          cases b with
          | true =>
            have hprops := hchild.1
            rw [hres] at hprops
            exact ⟨fun _ => hprops rfl, fun hfalse => by simp at hfalse⟩
          | false =>
            have hrest := hchild.2
            rw [hres] at hrest
            obtain ⟨hv', hp'⟩ := hrest rfl
            subst hv' hp'
            exact ihn s' fun m hm => hns m (List.mem_cons_of_mem n hm)
      intro ns hns
      exact hgen ns _ hns

theorem tryStarts_success {region : IRRegion} {cells : List Cell}
    (hagree : ∀ x, (x ∈ cells ↔ (x.1 + region.bounds.minX, x.2 + region.bounds.minY) ∈ region.cells))
    (hnod : cells.Nodup) :
    ∀ (starts : List Cell) (s : Nat), (∀ st ∈ starts, st ∈ cells) →
      (tryStarts region cells starts s).1.success = true →
      List.Perm (tryStarts region cells starts s).1.path cells ∧
        chainAdj (tryStarts region cells starts s).1.path = true := by
  intro starts
  induction starts with
  | nil => intro s _ h; simp [tryStarts] at h
  | cons st rest ih =>
    intro s hmem hsucc
    have hspec := dfsM_spec region cells (cells.length + 1) st [] [] s
      (hmem st (List.mem_cons_self st rest)) (List.not_mem_nil st)
      (fun x => Iff.rfl) List.nodup_nil (fun x hx => absurd hx (List.not_mem_nil x))
      hagree (by simp [chainAdj])
    simp only [tryStarts] at hsucc ⊢
    rcases hres : dfsM region cells (cells.length + 1) st [] [] s with ⟨b, v', p', s'⟩
    rw [hres] at hspec
    cases b with
    | true =>
      dsimp only at hspec hsucc ⊢
      obtain ⟨hnd, hlen, hsub, hchain⟩ := hspec.1 rfl
      exact ⟨(hnd.subperm hsub).perm_of_length_le (le_of_eq hlen.symm), hchain⟩
    | false =>
      rw [hres] at hsucc
      dsimp only at hspec hsucc ⊢
      exact ih s' (fun x hx => hmem x (List.mem_cons_of_mem st hx)) hsucc

theorem dfsHamiltonianPath_success {region : IRRegion} {s : Nat}
    (hnod : (region.cells.map fun c =>
      (c.1 - region.bounds.minX, c.2 - region.bounds.minY)).Nodup)
    (hsucc : (dfsHamiltonianPath region s).1.success = true) :
    List.Perm (dfsHamiltonianPath region s).1.path
        (region.cells.map fun c => (c.1 - region.bounds.minX, c.2 - region.bounds.minY)) ∧
      chainAdj (dfsHamiltonianPath region s).1.path = true := by
  unfold dfsHamiltonianPath at hsucc ⊢
  dsimp only at hsucc ⊢
  split at hsucc
  · simp at hsucc
  · next hne =>
    rw [if_neg hne]
    have hagree : ∀ x : Cell, (x ∈ (region.cells.map fun c =>
        (c.1 - region.bounds.minX, c.2 - region.bounds.minY)) ↔
        (x.1 + region.bounds.minX, x.2 + region.bounds.minY) ∈ region.cells) := by
      intro x
      simp only [List.mem_map]
      constructor
      · rintro ⟨c, hc, rfl⟩
        have he : (c.1 - region.bounds.minX + region.bounds.minX,
            c.2 - region.bounds.minY + region.bounds.minY) = c := by
          ext <;> dsimp <;> omega
        rw [he]
        exact hc
      · intro hc
        refine ⟨_, hc, ?_⟩
        ext <;> dsimp <;> omega
    refine tryStarts_success hagree hnod _ _ ?_ hsucc
    intro st hst
    have hp := inlineShuffle_perm (region.cells.map fun c =>
      (c.1 - region.bounds.minX, c.2 - region.bounds.minY)) s
    exact hp.mem_iff.mp (List.mem_of_mem_take hst)

theorem tryStrips_cases (region : IRRegion) (s : Nat) :
    ∀ k : Nat, (tryStrips region s k).1 = stripAndStitch region ∨
      (tryStrips region s k).1 = (dfsHamiltonianPath region s).1 := by
  intro k
  induction k with
  | zero => exact Or.inr rfl
  | succ k ih =>
    simp only [tryStrips]
    split
    · exact Or.inl rfl
    · exact ih

/-- On success, the Hamiltonian path returned by the module
`generateHamiltonianPath` is a permutation of the region's (offset) cell list
and consecutively 4-adjacent, whichever strategy produced it. -/
theorem generateHamiltonianPath_success {region : IRRegion} {s : Nat} {k : Nat}
    (hnod : (region.cells.map fun c =>
      (c.1 - region.bounds.minX, c.2 - region.bounds.minY)).Nodup)
    (hsucc : (generateHamiltonianPath region s k).1.success = true) :
    List.Perm (generateHamiltonianPath region s k).1.path
        (region.cells.map fun c => (c.1 - region.bounds.minX, c.2 - region.bounds.minY)) ∧
      chainAdj (generateHamiltonianPath region s k).1.path = true := by
  unfold generateHamiltonianPath at hsucc ⊢
  rcases tryStrips_cases region s k with hcase | hcase <;> rw [hcase] at hsucc ⊢
  · exact stripAndStitch_success hsucc
  · exact dfsHamiltonianPath_success hnod hsucc

/-! ### Bounds, normalization and the open-mask correspondence. -/

theorem boundsFold_dominates (w h : Int) :
    ∀ (cells : List Cell) (b0 : Bounds),
      ((cells.foldl (fun b c => ⟨min b.minX c.1, max b.maxX c.1, min b.minY c.2,
          max b.maxY c.2⟩) b0).minX ≤ b0.minX ∧
        b0.maxX ≤ (cells.foldl (fun b c => ⟨min b.minX c.1, max b.maxX c.1, min b.minY c.2,
          max b.maxY c.2⟩) b0).maxX ∧
        (cells.foldl (fun b c => ⟨min b.minX c.1, max b.maxX c.1, min b.minY c.2,
          max b.maxY c.2⟩) b0).minY ≤ b0.minY ∧
        b0.maxY ≤ (cells.foldl (fun b c => ⟨min b.minX c.1, max b.maxX c.1, min b.minY c.2,
          max b.maxY c.2⟩) b0).maxY) ∧
      ∀ c ∈ cells,
        (cells.foldl (fun b c => ⟨min b.minX c.1, max b.maxX c.1, min b.minY c.2,
          max b.maxY c.2⟩) b0).minX ≤ c.1 ∧
        c.1 ≤ (cells.foldl (fun b c => ⟨min b.minX c.1, max b.maxX c.1, min b.minY c.2,
          max b.maxY c.2⟩) b0).maxX ∧
        (cells.foldl (fun b c => ⟨min b.minX c.1, max b.maxX c.1, min b.minY c.2,
          max b.maxY c.2⟩) b0).minY ≤ c.2 ∧
        c.2 ≤ (cells.foldl (fun b c => ⟨min b.minX c.1, max b.maxX c.1, min b.minY c.2,
          max b.maxY c.2⟩) b0).maxY := by
  intro cells
  induction cells with
  | nil => intro b0; exact ⟨⟨le_refl _, le_refl _, le_refl _, le_refl _⟩, by simp⟩
  | cons c cs ih =>
    intro b0
    simp only [List.foldl_cons]
    obtain ⟨⟨hd1, hd2, hd3, hd4⟩, hmem⟩ := ih ⟨min b0.minX c.1, max b0.maxX c.1,
      min b0.minY c.2, max b0.maxY c.2⟩
    refine ⟨⟨?_, ?_, ?_, ?_⟩, ?_⟩
    · exact le_trans hd1 (by simp)
    · exact le_trans (by simp) hd2
    · exact le_trans hd3 (by simp)
    · exact le_trans (by simp) hd4
    · intro x hx
      rcases List.mem_cons.mp hx with rfl | hx
      · exact ⟨le_trans hd1 (by simp), le_trans (by simp) hd2,
          le_trans hd3 (by simp), le_trans (by simp) hd4⟩
      · exact hmem x hx

theorem boundsFold_le {w h : Int} {cells : List Cell} :
    ∀ c ∈ cells, (boundsFold w h cells).minX ≤ c.1 ∧ c.1 ≤ (boundsFold w h cells).maxX ∧
      (boundsFold w h cells).minY ≤ c.2 ∧ c.2 ≤ (boundsFold w h cells).maxY :=
  (boundsFold_dominates w h cells ⟨w, 0, h, 0⟩).2

theorem boundsFold_range {w h : Int} {cells : List Cell}
    (hrect : ∀ c ∈ cells, 0 ≤ c.1 ∧ c.1 < w ∧ 0 ≤ c.2 ∧ c.2 < h)
    (hw : 1 ≤ w) (hh : 1 ≤ h) :
    0 ≤ (boundsFold w h cells).minX ∧ (boundsFold w h cells).maxX < w ∧
      0 ≤ (boundsFold w h cells).minY ∧ (boundsFold w h cells).maxY < h := by
  unfold boundsFold
  suffices hgen : ∀ (cs : List Cell) (b0 : Bounds),
      (∀ c ∈ cs, 0 ≤ c.1 ∧ c.1 < w ∧ 0 ≤ c.2 ∧ c.2 < h) →
      0 ≤ b0.minX → b0.maxX < w → 0 ≤ b0.minY → b0.maxY < h →
      0 ≤ (cs.foldl (fun b c => ⟨min b.minX c.1, max b.maxX c.1, min b.minY c.2,
        max b.maxY c.2⟩) b0).minX ∧
      (cs.foldl (fun b c => ⟨min b.minX c.1, max b.maxX c.1, min b.minY c.2,
        max b.maxY c.2⟩) b0).maxX < w ∧
      0 ≤ (cs.foldl (fun b c => ⟨min b.minX c.1, max b.maxX c.1, min b.minY c.2,
        max b.maxY c.2⟩) b0).minY ∧
      (cs.foldl (fun b c => ⟨min b.minX c.1, max b.maxX c.1, min b.minY c.2,
        max b.maxY c.2⟩) b0).maxY < h by
    exact hgen cells ⟨w, 0, h, 0⟩ hrect (by dsimp only; omega) (by dsimp only; omega)
      (by dsimp only; omega) (by dsimp only; omega)
  intro cs
  induction cs with
  | nil => intro b0 _ h1 h2 h3 h4; exact ⟨h1, h2, h3, h4⟩
  | cons c cs ih =>
    intro b0 hcs h1 h2 h3 h4
    simp only [List.foldl_cons]
    have hc := hcs c (List.mem_cons_self c cs)
    exact ih _ (fun x hx => hcs x (List.mem_cons_of_mem c hx)) (by simp; omega)
      (by simp; omega) (by simp; omega) (by simp; omega)

theorem oneComponent_congr {l1 l2 : List Cell} (hiff : ∀ x, x ∈ l1 ↔ x ∈ l2)
    (h : oneComponent l1) : oneComponent l2 := by
  obtain ⟨hne, hconn⟩ := h
  have hsub : ∀ x ∈ l1, x ∈ l2 := fun x hx => (hiff x).mp hx
  constructor
  · intro hnil
    rcases l1 with - | ⟨a, l⟩
    · exact hne rfl
    · have := (hiff a).mp (List.mem_cons_self a l)
      rw [hnil] at this
      exact absurd this (List.not_mem_nil a)
  · intro a ha b hb
    exact connIn_mono hsub (hconn a ((hiff a).mpr ha) b ((hiff b).mpr hb))

/-- The normalized region of a mode-1 request: duplicate-free cells inside
the `w × h` rectangle forming one component. -/
theorem mode1_normalized_props (p : GameParams) (hw : 1 ≤ orIntD p.w 10)
    (hh : 1 ≤ orIntD p.h 10) :
    (normalizeRegion (mode1Region p)).cells.Nodup ∧
      (∀ c ∈ (normalizeRegion (mode1Region p)).cells,
        0 ≤ c.1 ∧ c.1 < orIntD p.w 10 ∧ 0 ≤ c.2 ∧ c.2 < orIntD p.h 10) ∧
      oneComponent (normalizeRegion (mode1Region p)).cells := by
  obtain ⟨⟨hstart, hrect, -, hnodup, -, -, -, hconn⟩, hmem⟩ :=
    generateIRRegion_inv (w := orIntD p.w 10) (h := orIntD p.h 10) hw hh
      (1 - orQD p.hd (1 / 10)) (hashString (orStrD p.seed "default"))
  replace hrect : ∀ c ∈ (mode1Region p).cells,
      0 ≤ c.1 ∧ c.1 < orIntD p.w 10 ∧ 0 ≤ c.2 ∧ c.2 < orIntD p.h 10 := hrect
  replace hnodup : (mode1Region p).cells.Nodup := hnodup
  replace hconn : ∀ c ∈ (mode1Region p).cells,
      connIn (mode1Region p).cells (orIntD p.w 10 / 2, orIntD p.h 10 / 2) c := hconn
  replace hmem : (orIntD p.w 10 / 2, orIntD p.h 10 / 2) ∈ (mode1Region p).cells := hmem
  have hb := boundsFold_range (w := orIntD p.w 10) (h := orIntD p.h 10) hrect hw hh
  have hf : ∀ c ∈ (mode1Region p).cells,
      (mode1Region p).bounds.minX ≤ c.1 ∧ c.1 ≤ (mode1Region p).bounds.maxX ∧
        (mode1Region p).bounds.minY ≤ c.2 ∧ c.2 ≤ (mode1Region p).bounds.maxY :=
    boundsFold_le (w := orIntD p.w 10) (h := orIntD p.h 10)
  have hbr : 0 ≤ (mode1Region p).bounds.minX ∧ (mode1Region p).bounds.maxX < orIntD p.w 10 ∧
      0 ≤ (mode1Region p).bounds.minY ∧ (mode1Region p).bounds.maxY < orIntD p.h 10 := hb
  refine ⟨?_, ?_, ?_⟩
  · simp only [normalizeRegion]
    refine hnodup.map ?_
    intro a b hab
    have h1 : a.1 - (mode1Region p).bounds.minX = b.1 - (mode1Region p).bounds.minX := by
      exact congrArg Prod.fst hab
    have h2 : a.2 - (mode1Region p).bounds.minY = b.2 - (mode1Region p).bounds.minY := by
      exact congrArg Prod.snd hab
    ext
    · omega
    · omega
  · simp only [normalizeRegion, List.mem_map]
    rintro c ⟨c0, hc0, rfl⟩
    have hr := hrect c0 hc0
    have hle := hf c0 hc0
    dsimp only
    omega
  · simp only [normalizeRegion]
    have hcomp : oneComponent (mode1Region p).cells := by
      refine ⟨fun hnil => by rw [hnil] at hmem; exact absurd hmem (List.not_mem_nil _),
        fun a ha b hb => (connIn_symm (hconn a ha)).trans (hconn b hb)⟩
    obtain ⟨hne, hconn'⟩ := hcomp
    constructor
    · intro hnil
      rcases hcl : (mode1Region p).cells with - | ⟨a, l⟩
      · exact hne hcl
      · rw [hcl] at hnil; simp at hnil
    · rintro a ha b hb
      simp only [List.mem_map] at ha hb
      obtain ⟨a0, ha0, rfl⟩ := ha
      obtain ⟨b0, hb0, rfl⟩ := hb
      refine Relation.ReflTransGen.lift
        (fun c : Cell => (c.1 - (mode1Region p).bounds.minX,
          c.2 - (mode1Region p).bounds.minY)) ?_ (hconn' a0 ha0 b0 hb0)
      rintro x y ⟨hx, hy, hadj⟩
      refine ⟨List.mem_map_of_mem _ hx, List.mem_map_of_mem _ hy, ?_⟩
      unfold cellAdj at hadj ⊢
      dsimp only
      omega

theorem maskSet_length (m : List Nat) (idx : Int) (v : Nat) :
    (maskSet m idx v).length = m.length := by
  unfold maskSet
  split
  · exact List.length_set m _ _
  · rfl

theorem maskFold_length (w : Int) :
    ∀ (cells : List Cell) (m0 : List Nat),
      (cells.foldl (fun m c => maskSet m (c.2 * w + c.1) 1) m0).length = m0.length := by
  intro cells
  induction cells with
  | nil => intro m0; rfl
  | cons c cs ih =>
    intro m0
    simp only [List.foldl_cons]
    rw [ih, maskSet_length]

theorem maskSet_getD (m : List Nat) (idx : Int) (v : Nat) (i : Nat) :
    (maskSet m idx v).getD i 0 =
      if idx = (i : Int) ∧ i < m.length then v else m.getD i 0 := by
  unfold maskSet
  split
  · next hrange =>
    by_cases hij : idx.toNat = i ∧ i < m.length
    · rw [if_pos (by omega)]
      obtain ⟨hij1, hij2⟩ := hij
      subst hij1
      rw [List.getD_eq_getElem?_getD,
        List.getElem?_set_self (by omega)]
      simp
    · rw [if_neg (by omega)]
      rcases Nat.lt_or_ge i m.length with hi | hi
      · have hne : idx.toNat ≠ i := by omega
        rw [List.getD_eq_getElem?_getD, List.getElem?_set_ne hne,
          ← List.getD_eq_getElem?_getD]
      · rw [List.getD_eq_getElem?_getD, List.getElem?_eq_none (by rw [List.length_set]; omega),
          List.getD_eq_getElem?_getD, List.getElem?_eq_none hi]
  · next hrange =>
    rw [if_neg (by omega)]

theorem maskFold_getD (w : Int) :
    ∀ (cells : List Cell) (m0 : List Nat) (i : Nat), i < m0.length →
      (cells.foldl (fun m c => maskSet m (c.2 * w + c.1) 1) m0).getD i 0 =
        if ∃ c ∈ cells, c.2 * w + c.1 = (i : Int) then 1 else m0.getD i 0 := by
  intro cells
  induction cells with
  | nil => intro m0 i _; simp
  | cons c cs ih =>
    intro m0 i hi
    simp only [List.foldl_cons]
    rw [ih _ _ (by rw [maskSet_length]; exact hi), maskSet_getD]
    by_cases h1 : ∃ c' ∈ cs, c'.2 * w + c'.1 = (i : Int)
    · obtain ⟨c', hc', he⟩ := h1
      rw [if_pos ⟨c', hc', he⟩, if_pos ⟨c', List.mem_cons_of_mem c hc', he⟩]
    · rw [if_neg h1]
      by_cases h2 : c.2 * w + c.1 = (i : Int)
      · rw [if_pos ⟨h2, hi⟩, if_pos ⟨c, List.mem_cons_self c cs, h2⟩]
      · rw [if_neg (fun hx => h2 hx.1), if_neg ?_]
        rintro ⟨c', hc', he⟩
        rcases List.mem_cons.mp hc' with rfl | hc'
        · exact h2 he
        · exact h1 ⟨c', hc', he⟩

theorem encode_range {w h x y : Int} (hx0 : 0 ≤ x) (hxw : x < w) (hy0 : 0 ≤ y) (hyh : y < h) :
    0 ≤ y * w + x ∧ y * w + x < w * h := by
  have hw0 : 0 ≤ w := le_trans hx0 (le_of_lt hxw)
  have h1 : (y + 1) * w ≤ h * w := mul_le_mul_of_nonneg_right (by omega) hw0
  have h2 : 0 ≤ y * w := mul_nonneg hy0 hw0
  have h3 : (y + 1) * w = y * w + w := by ring
  have h4 : h * w = w * h := mul_comm h w
  omega

theorem encode_decode {w x y : Int} (hx0 : 0 ≤ x) (hxw : x < w) :
    (y * w + x) % w = x ∧ (y * w + x) / w = y := by
  constructor
  · rw [add_comm, mul_comm, Int.add_mul_emod_self_left, Int.emod_eq_of_lt hx0 hxw]
  · rw [add_comm, Int.add_mul_ediv_right _ _ (by omega : w ≠ 0),
      Int.ediv_eq_zero_of_lt hx0 hxw, zero_add]

theorem mode1Open_length (p : GameParams) :
    (mode1Open p).length = (orIntD p.w 10 * orIntD p.h 10).toNat := by
  unfold mode1Open
  rw [maskFold_length, List.length_replicate]

theorem mode1Open_getD (p : GameParams) (i : Nat)
    (hi : i < (orIntD p.w 10 * orIntD p.h 10).toNat) :
    (mode1Open p).getD i 0 =
      if ∃ c ∈ (normalizeRegion (mode1Region p)).cells,
          c.2 * orIntD p.w 10 + c.1 = (i : Int) then 1 else 0 := by
  unfold mode1Open
  rw [maskFold_getD _ _ _ _ (by rw [List.length_replicate]; exact hi)]
  split
  · rfl
  · simp

/-- The mode-1 success branch of the module `generateLevel`, written out: the
level it assembles when the Hamiltonian path construction succeeds with a
non-empty path. -/
theorem generateLevel_mode1 (p : GameParams) (hm : orIntD p.m 1 = 1)
    (hsucc : (mode1Ham p).success = true) (hne : (mode1Ham p).path ≠ []) :
    generateLevel p =
      { v := 1, mode := orIntD p.m 1, w := orIntD p.w 10, h := orIntD p.h 10,
        openMask := mode1Open p,
        starts := [(0, ((mode1Ham p).path.headD (0, 0)).2 * orIntD p.w 10 +
          ((mode1Ham p).path.headD (0, 0)).1)],
        solution := pathToSolution (mode1Ham p).path,
        metrics := calculateMetrics (normalizeRegion (mode1Region p)).cells
          (mode1Ham p).path (orIntD p.w 10) (orIntD p.h 10),
        seed := orStrD p.seed "default", params := p } := by
  unfold generateLevel
  dsimp only
  rw [if_pos hm, if_neg ?_]
  · rfl
  · intro hfail
    have hfail' : (mode1Ham p).success = false ∨ (mode1Ham p).path = [] := hfail
    rcases hfail' with h | h
    · rw [hsucc] at h; exact absurd h (by simp)
    · exact hne h

/-- On the mode-1 success branch, the open cells of the produced level are
exactly the normalized region cells (as sets). -/
theorem mem_openCells_mode1 (p : GameParams) (hw : 1 ≤ orIntD p.w 10)
    (hh : 1 ≤ orIntD p.h 10) (hm : orIntD p.m 1 = 1)
    (hsucc : (mode1Ham p).success = true) (hne : (mode1Ham p).path ≠ []) :
    ∀ x, x ∈ openCells (generateLevel p) ↔
      x ∈ (normalizeRegion (mode1Region p)).cells := by
  obtain ⟨-, hrect, -⟩ := mode1_normalized_props p hw hh
  intro x
  rw [generateLevel_mode1 p hm hsucc hne]
  simp only [openCells, openIdx, List.mem_map, List.mem_filter, List.mem_range,
    decide_eq_true_eq, mode1Open_length]
  constructor
  · rintro ⟨i, ⟨j, ⟨hj, hbit⟩, rfl⟩, rfl⟩
    rw [mode1Open_getD p j hj] at hbit
    split at hbit
    · next hex =>
      obtain ⟨c, hc, he⟩ := hex
      obtain ⟨hx0, hxw, hy0, hyh⟩ := hrect c hc
      have hdec := encode_decode (y := c.2) hx0 hxw
      rw [show Int.ofNat j = (j : Int) from rfl, ← he, hdec.1, hdec.2]
      simpa using hc
    · exact absurd hbit (by simp)
  · intro hx
    obtain ⟨hx0, hxw, hy0, hyh⟩ := hrect x hx
    have hr := encode_range hx0 hxw hy0 hyh
    refine ⟨((x.2 * orIntD p.w 10 + x.1).toNat : Int),
      ⟨(x.2 * orIntD p.w 10 + x.1).toNat, ⟨by omega, ?_⟩, rfl⟩, ?_⟩
    · rw [mode1Open_getD p _ (by omega)]
      rw [if_pos ⟨x, hx, by omega⟩]
    · have he : (((x.2 * orIntD p.w 10 + x.1).toNat : Nat) : Int) =
        x.2 * orIntD p.w 10 + x.1 := by omega
      rw [he]
      have hdec := encode_decode (y := x.2) hx0 hxw
      rw [hdec.1, hdec.2]

theorem openIdx_nodup (L : Level) : (openIdx L).Nodup := by
  unfold openIdx
  exact ((List.nodup_range _).filter _).map fun a b h => Int.ofNat.inj h

theorem openCells_nodup (L : Level) : (openCells L).Nodup := by
  unfold openCells
  refine (openIdx_nodup L).map_on ?_
  intro i _ j _ hij
  have h1 : i % L.w = j % L.w := congrArg Prod.fst hij
  have h2 : i / L.w = j / L.w := congrArg Prod.snd hij
  calc i = L.w * (i / L.w) + i % L.w := (Int.ediv_add_emod i L.w).symm
    _ = L.w * (j / L.w) + j % L.w := by rw [h1, h2]
    _ = j := Int.ediv_add_emod j L.w

/-- On the mode-1 success branch, the open cells are a permutation of the
normalized region cells, so `|OpenSet|` is the region size. -/
theorem openCells_perm_mode1 (p : GameParams) (hw : 1 ≤ orIntD p.w 10)
    (hh : 1 ≤ orIntD p.h 10) (hm : orIntD p.m 1 = 1)
    (hsucc : (mode1Ham p).success = true) (hne : (mode1Ham p).path ≠ []) :
    List.Perm (openCells (generateLevel p)) (normalizeRegion (mode1Region p)).cells := by
  obtain ⟨hnodup, -, -⟩ := mode1_normalized_props p hw hh
  exact (List.perm_ext_iff_of_nodup (openCells_nodup _) hnodup).mpr
    (mem_openCells_mode1 p hw hh hm hsucc hne)

theorem openCount_mode1 (p : GameParams) (hw : 1 ≤ orIntD p.w 10)
    (hh : 1 ≤ orIntD p.h 10) (hm : orIntD p.m 1 = 1)
    (hsucc : (mode1Ham p).success = true) (hne : (mode1Ham p).path ≠ []) :
    openCount (generateLevel p) = (normalizeRegion (mode1Region p)).cells.length := by
  have hlen := (openCells_perm_mode1 p hw hh hm hsucc hne).length_eq
  unfold openCells at hlen
  rw [List.length_map] at hlen
  exact hlen

/-- The Hamiltonian path underlying a successful mode-1 level: a permutation
of the normalized region cells with consecutive 4-adjacency. -/
theorem mode1Ham_path_spec (p : GameParams) (hw : 1 ≤ orIntD p.w 10)
    (hh : 1 ≤ orIntD p.h 10) (hsucc : (mode1Ham p).success = true) :
    List.Perm (mode1Ham p).path (normalizeRegion (mode1Region p)).cells ∧
      chainAdj (mode1Ham p).path = true := by
  obtain ⟨hnodup, -, -⟩ := mode1_normalized_props p hw hh
  have hnod : ((normalizeRegion (mode1Region p)).cells.map fun c =>
      (c.1 - (normalizeRegion (mode1Region p)).bounds.minX,
        c.2 - (normalizeRegion (mode1Region p)).bounds.minY)).Nodup := by
    rw [cellsList_normalized]; exact hnodup
  have hsucc' : (generateHamiltonianPath (normalizeRegion (mode1Region p))
      (generateIRRegion (orIntD p.w 10) (orIntD p.h 10) (1 - orQD p.hd (1 / 10))
        (hashString (orStrD p.seed "default"))).2 3).1.success = true := hsucc
  have hres := generateHamiltonianPath_success hnod hsucc'
  rw [cellsList_normalized] at hres
  exact ⟨hres.1, hres.2⟩

/-- C2: for a mode-1 level built by the (successful) Hamiltonian branch,
`solution` is the direction encoding of a Hamiltonian path over the open set:
it equals `pathToSolution` of that path, has length `|OpenSet| - 1` with every
entry `< 4`, and the path itself visits `|OpenSet|` distinct cells,
consecutively 4-adjacent, with cell set exactly `OpenSet`. -/
theorem mode1_solution_direction_encoding (p : GameParams)
    (hw : 1 ≤ orIntD p.w 10) (hh : 1 ≤ orIntD p.h 10) (hm : orIntD p.m 1 = 1)
    (hsucc : (mode1Ham p).success = true) (hne : (mode1Ham p).path ≠ []) :
    (generateLevel p).solution = pathToSolution (mode1Ham p).path ∧
      (generateLevel p).solution.length = openCount (generateLevel p) - 1 ∧
      (∀ d ∈ (generateLevel p).solution, d < 4) ∧
      (mode1Ham p).path.Nodup ∧
      (mode1Ham p).path.length = openCount (generateLevel p) ∧
      chainAdj (mode1Ham p).path = true ∧
      ∀ x, x ∈ (mode1Ham p).path ↔ x ∈ openCells (generateLevel p) := by
  obtain ⟨hperm, hchain⟩ := mode1Ham_path_spec p hw hh hsucc
  obtain ⟨hnodup, -, -⟩ := mode1_normalized_props p hw hh
  have hsol : (generateLevel p).solution = pathToSolution (mode1Ham p).path := by
    rw [generateLevel_mode1 p hm hsucc hne]
  have hcount := openCount_mode1 p hw hh hm hsucc hne
  have hopen := mem_openCells_mode1 p hw hh hm hsucc hne
  refine ⟨hsol, ?_, ?_, ?_, ?_, hchain, ?_⟩
  · rw [hsol, pathToSolution_length, hcount, hperm.length_eq]
  · rw [hsol]; exact pathToSolution_lt_four _
  · exact hperm.nodup_iff.mpr hnodup
  · rw [hcount, hperm.length_eq]
  · intro x
    rw [hperm.mem_iff, hopen x]

unseal Rat.mul Rat.add Rat.sub Rat.inv List.merge List.mergeSort in
/-- C2 witness: the amended theorem applied at the concrete mode-1 request
`pDiverge`, where the Hamiltonian branch succeeds. -/
theorem mode1_solution_direction_encoding_witness :
    (mode1Ham pDiverge).success = true ∧
      (generateLevel pDiverge).solution.length = openCount (generateLevel pDiverge) - 1 :=
  ⟨by decide, (mode1_solution_direction_encoding pDiverge (by decide) (by decide)
      (by decide) (by decide) (by decide)).2.1⟩

/-- C3: for a mode-1 level built by the (successful) Hamiltonian branch, the
open cells form exactly one 4-connected component. -/
theorem mode1_ham_open_set_one_component (p : GameParams)
    (hw : 1 ≤ orIntD p.w 10) (hh : 1 ≤ orIntD p.h 10) (hm : orIntD p.m 1 = 1)
    (hsucc : (mode1Ham p).success = true) (hne : (mode1Ham p).path ≠ []) :
    oneComponent (openCells (generateLevel p)) := by
  obtain ⟨-, -, hcomp⟩ := mode1_normalized_props p hw hh
  exact oneComponent_congr (fun x => (mem_openCells_mode1 p hw hh hm hsucc hne x).symm) hcomp

unseal Rat.mul Rat.add Rat.sub Rat.inv List.merge List.mergeSort in
/-- C3 witness: the amended theorem applied at the concrete mode-1 request
`pDiverge`, where the Hamiltonian branch succeeds. -/
theorem mode1_ham_open_set_one_component_witness :
    orIntD pDiverge.m 1 = 1 ∧ oneComponent (openCells (generateLevel pDiverge)) :=
  ⟨by decide, mode1_ham_open_set_one_component pDiverge (by decide) (by decide)
      (by decide) (by decide) (by decide)⟩

/-! ### C9: the DFS call budget. -/

theorem pathCells_length (n : Nat) : (pathCells n).length = n := by
  rw [pathCells, List.length_map, List.length_range]

theorem pathCells_succ (n : Nat) : pathCells (n + 1) = pathCells n ++ [((n : Int), 0)] := by
  simp [pathCells, List.range_succ]

theorem mem_pathCells {n : Nat} {c : Cell} :
    c ∈ pathCells n ↔ 0 ≤ c.1 ∧ c.1 < (n : Int) ∧ c.2 = 0 := by
  obtain ⟨a, b⟩ := c
  constructor
  · intro h
    simp only [pathCells, List.mem_map, List.mem_range] at h
    obtain ⟨i, hi, he⟩ := h
    have e1 : (i : Int) = a := congrArg Prod.fst he
    have e2 : (0 : Int) = b := congrArg Prod.snd he
    dsimp only
    omega
  · rintro ⟨h1, h2, h3⟩
    dsimp only at h1 h2 h3
    simp only [pathCells, List.mem_map, List.mem_range]
    refine ⟨a.toNat, by omega, ?_⟩
    rw [Int.toNat_of_nonneg h1, h3]

theorem inlineShuffle_single (x : Cell) (s : Nat) : inlineShuffle [x] s = ([x], s) := rfl

theorem dfsMCount_succ (region : IRRegion) (cells : List Cell) (f : Nat) :
    dfsMCount region cells (f + 1) = dfsMCountStep region cells (dfsMCount region cells f) :=
  rfl

theorem dfsNeighbors_path {n k : Nat} (hk : k + 1 < n) :
    dfsNeighbors (pathRegion n) (pathCells (k + 1)) ((k : Int), 0) = [((k : Int) + 1, 0)] := by
  unfold dfsNeighbors pathRegion
  simp only [List.foldl_cons, List.foldl_nil]
  norm_num
  have hA : ¬(((k : Int), (1 : Int)) ∈ pathCells n ∧ ((k : Int), (1 : Int)) ∉ pathCells (k + 1)) := by
    rintro ⟨hm, -⟩
    have := mem_pathCells.mp hm
    dsimp only at this
    omega
  have hB : ((k : Int) + 1, (0 : Int)) ∈ pathCells n ∧
      ((k : Int) + 1, (0 : Int)) ∉ pathCells (k + 1) := by
    constructor
    · exact mem_pathCells.mpr (by dsimp only; omega)
    · intro hm
      have := mem_pathCells.mp hm
      dsimp only at this
      omega
  have hC : ¬(((k : Int), (-1 : Int)) ∈ pathCells n ∧
      ((k : Int), (-1 : Int)) ∉ pathCells (k + 1)) := by
    rintro ⟨hm, -⟩
    have := mem_pathCells.mp hm
    dsimp only at this
    omega
  have hD : ¬(((k : Int) + -1, (0 : Int)) ∈ pathCells n ∧
      ((k : Int) + -1, (0 : Int)) ∉ pathCells (k + 1)) := by
    rintro ⟨hm, hnm⟩
    have h1 := mem_pathCells.mp hm
    dsimp only at h1
    exact hnm (mem_pathCells.mpr (by dsimp only; omega))
  simp only [if_neg hA, if_pos hB, if_neg hC, if_neg hD, List.nil_append]

/-- On the segment region, the DFS started at cell `k` with the first `k`
cells already visited walks straight to the far end: it succeeds, and every
one of the remaining `m = n - k` cells costs exactly one `dfs` invocation —
the visit counter grows by exactly `m`, unchecked against any budget. -/
theorem dfsMCount_path (n : Nat) :
    ∀ m k f s c, k + m = n → 1 ≤ m → m ≤ f →
      dfsMCount (pathRegion n) (pathCells n) f ((k : Int), 0) (pathCells k) (pathCells k) s c =
        (true, pathCells n, pathCells n, s, c + m) := by
  intro m
  induction m with
  | zero => intro k f s c _ h1 _; exact absurd h1 (by omega)
  | succ m ih =>
    intro k f s c hkm hm1 hmf
    obtain ⟨f', rfl⟩ : ∃ f', f = f' + 1 := ⟨f - 1, by omega⟩
    rw [dfsMCount_succ]
    unfold dfsMCountStep
    dsimp only
    have hnotmem : ((k : Int), (0 : Int)) ∉ pathCells k := by
      intro hm
      have := mem_pathCells.mp hm
      dsimp only at this
      omega
    have hins : insertUnique (pathCells k) ((k : Int), 0) = pathCells (k + 1) := by
      rw [insertUnique, if_neg hnotmem, ← pathCells_succ]
    have happ : pathCells k ++ [((k : Int), 0)] = pathCells (k + 1) := (pathCells_succ k).symm
    rw [hins, happ]
    by_cases hlast : m = 0
    · subst hlast
      have hn : k + 1 = n := by omega
      rw [if_pos (by rw [pathCells_length, pathCells_length]; omega), hn]
    · rw [if_neg (by rw [pathCells_length, pathCells_length]; omega)]
      rw [dfsNeighbors_path (show k + 1 < n by omega), inlineShuffle_single]
      dsimp only
      have hcast : ((k : Int) + 1) = (((k + 1 : Nat) : Int)) := by push_cast; ring
      rw [hcast]
      have hrec := ih (k + 1) f' s (c + 1) (by omega) (by omega) (by omega)
      simp only [dfsMCountTry, hrec]
      have : c + 1 + m = c + (m + 1) := by omega
      rw [this]

/-- The counter is pure instrumentation: dropping it from the child loop
gives back the module loop. -/
theorem dfsMCountTry_agree
    (rec : Cell → List Cell → List Cell → Nat → Bool × List Cell × List Cell × Nat)
    (recC : Cell → List Cell → List Cell → Nat → Nat → Bool × List Cell × List Cell × Nat × Nat)
    (hrec : ∀ x v p s c, ((recC x v p s c).1, (recC x v p s c).2.1, (recC x v p s c).2.2.1,
      (recC x v p s c).2.2.2.1) = rec x v p s)
    (cur : Cell) :
    ∀ (ns v p : List Cell) (s c : Nat),
      ((dfsMCountTry recC cur ns v p s c).1, (dfsMCountTry recC cur ns v p s c).2.1,
        (dfsMCountTry recC cur ns v p s c).2.2.1, (dfsMCountTry recC cur ns v p s c).2.2.2.1) =
      dfsMTry rec cur ns v p s := by
  intro ns
  induction ns with
  | nil => intro v p s c; rfl
  | cons x rest ih =>
    intro v p s c
    simp only [dfsMCountTry, dfsMTry]
    have h := hrec x v p s c
    rcases hres : recC x v p s c with ⟨b, v', p', s', c'⟩
    rw [hres] at h
    dsimp only at h
    rw [← h]
    cases b
    · dsimp only
      exact ih v' p' s' c'
    · rfl

/-- The counter is pure instrumentation: the first four components of
`dfsMCount` are exactly `dfsM`. -/
theorem dfsMCount_eq_dfsM (region : IRRegion) (cells : List Cell) :
    ∀ (f : Nat) (cur : Cell) (v p : List Cell) (s c : Nat),
      ((dfsMCount region cells f cur v p s c).1, (dfsMCount region cells f cur v p s c).2.1,
        (dfsMCount region cells f cur v p s c).2.2.1,
        (dfsMCount region cells f cur v p s c).2.2.2.1) =
      dfsM region cells f cur v p s := by
  intro f
  induction f with
  | zero => intro cur v p s c; rfl
  | succ f ih =>
    intro cur v p s c
    rw [dfsMCount_succ]
    unfold dfsMCountStep
    simp only [dfsM]
    by_cases hlen : (p ++ [cur]).length = cells.length
    · rw [if_pos hlen, if_pos hlen]
    · rw [if_neg hlen, if_neg hlen]
      exact dfsMCountTry_agree _ _ (fun x v' p' s' c' => ih x v' p' s' c') cur _ _ _ _ _

/-- C9 counterexample: the module `dfs` (the `hamiltonian` module copy of the
fallback, one of the two cited implementations) has no call budget at all.
On the 10001-cell segment region, the very call `tryStarts` makes for the
candidate start `(0,0)` — fuel `cells.length + 1`, empty `visited`/`path` —
performs exactly 10001 node visits, more than the claimed 10000-visit cutoff,
and is not cut off: it runs to successful completion. -/
theorem module_dfs_exceeds_call_budget :
    (dfsM (pathRegion 10001) (pathCells 10001) (10001 + 1) ((0 : Int), 0) [] [] 0).1 = true ∧
      10000 < (dfsMCount (pathRegion 10001) (pathCells 10001) (10001 + 1)
        ((0 : Int), 0) [] [] 0 0).2.2.2.2 := by
  have h := dfsMCount_path 10001 10001 0 (10001 + 1) 0 0 (by omega) (by omega) (by omega)
  rw [show pathCells 0 = [] from rfl] at h
  simp only [Nat.cast_zero] at h
  have hag := dfsMCount_eq_dfsM (pathRegion 10001) (pathCells 10001) (10001 + 1)
    ((0 : Int), 0) [] [] 0 0
  constructor
  · rw [← hag, h]
  · rw [h]
    norm_num

/-- Each neighbor list the worker DFS builds has at most four entries. -/
theorem dfsNeighborsW_length_le (region : WF.Region) (visited : List Cell) (c : Cell) :
    (WF.dfsNeighborsW region visited c).length ≤ 4 := by
  have hgen : ∀ (l : List (Int × Int)) (acc : List Cell),
      (l.foldl (fun acc d =>
        let n : Cell := (c.1 + d.1, c.2 + d.2)
        if n ∈ region.cells ∧ n ∉ visited then acc ++ [n] else acc) acc).length ≤
      acc.length + l.length := by
    intro l
    induction l with
    | nil => intro acc; simp
    | cons d rest ih =>
      intro acc
      simp only [List.foldl_cons]
      refine le_trans (ih _) ?_
      dsimp only
      split
      · simp only [List.length_append, List.length_cons, List.length_nil]
        omega
      · simp only [List.length_cons]
        omega
  unfold WF.dfsNeighborsW
  exact le_trans (hgen _ []) (by simp)

/-- Counts only grow through the worker DFS child loop, bounded by one fresh
visit per remaining neighbor plus the recursive bound `B`. -/
theorem dfsWTry_count_bound
    (rec : Cell → List Cell → List Cell → Nat → Nat →
      Bool × List Cell × List Cell × Nat × Nat) (B : Nat)
    (hrec : ∀ x v p s c, (rec x v p s c).2.2.2.2 ≤ max (c + 1) B)
    (cur : Cell) :
    ∀ (ns v p : List Cell) (s c : Nat),
      (WF.dfsWTry rec cur ns v p s c).2.2.2.2 ≤ max (c + ns.length) (B + ns.length) := by
  intro ns
  induction ns with
  | nil =>
    intro v p s c
    simp only [WF.dfsWTry, List.length_nil]
    omega
  | cons x rest ih =>
    intro v p s c
    simp only [WF.dfsWTry]
    have h := hrec x v p s c
    rcases hres : rec x v p s c with ⟨b, v', p', s', c'⟩
    rw [hres] at h
    dsimp only at h
    cases b
    · dsimp only
      have h2 := ih v' p' s' c'
      simp only [List.length_cons]
      omega
    · dsimp only
      simp only [List.length_cons]
      omega

/-- The worker `dfs` visit budget: from entry count `c`, the final value of
`dfsCallCount` never exceeds `max (c + 1) (MAX_DFS_CALLS + 4·fuel + 1)` —
once the counter passes `MAX_DFS_CALLS`, each pending neighbor costs one
aborted call and nothing more. -/
theorem dfsW_count_bound (region : WF.Region) (cells : List Cell) :
    ∀ (f : Nat) (cur : Cell) (v p : List Cell) (s c : Nat),
      (WF.dfsW region cells f cur v p s c).2.2.2.2 ≤
        max (c + 1) (WF.MAX_DFS_CALLS + 4 * f + 1) := by
  intro f
  induction f with
  | zero =>
    intro cur v p s c
    simp only [WF.dfsW]
    omega
  | succ f ih =>
    intro cur v p s c
    simp only [WF.dfsW]
    by_cases hb : WF.MAX_DFS_CALLS < c + 1
    · rw [if_pos hb]
      dsimp only
      omega
    · rw [if_neg hb]
      by_cases hlen : (p ++ [cur]).length = cells.length
      · rw [if_pos hlen]
        dsimp only
        omega
      · rw [if_neg hlen]
        refine le_trans (dfsWTry_count_bound _ (WF.MAX_DFS_CALLS + 4 * f + 1)
          (fun x v' p' s' c' => ih x v' p' s' c') cur _ _ _ _ _) ?_
        have hlen4 : (WF.shuffle (WF.dfsNeighborsW region (insertUnique v cur) cur)
            s).1.length ≤ 4 := by
          have hperm := fyAux_perm ((WF.dfsNeighborsW region (insertUnique v cur) cur).length
            - 1) (WF.dfsNeighborsW region (insertUnique v cur) cur) s
          rw [WF.shuffle, wf_fyAux_eq]
          rw [hperm.length_eq]
          exact dfsNeighborsW_length_le region _ cur
        have hmax : WF.MAX_DFS_CALLS < c + 1 → False := hb
        unfold WF.MAX_DFS_CALLS at *
        omega

/-- The worker candidate loop reports failure only by exhausting its
candidate list: each listed start was actually run (from a fresh counter)
and failed. -/
theorem tryStartsW_failure (region : WF.Region) (cells : List Cell) :
    ∀ (sts : List Cell) (s : Nat),
      (WF.tryStartsW region cells sts s).1.success = false →
      ∀ st ∈ sts, ∃ s', (WF.dfsW region cells (cells.length + 1) st [] [] s' 0).1 = false := by
  intro sts
  induction sts with
  | nil => intro s _ st hst; exact absurd hst (List.not_mem_nil st)
  | cons st0 rest ih =>
    intro s hfail st hst
    simp only [WF.tryStartsW] at hfail
    rcases hres : WF.dfsW region cells (cells.length + 1) st0 [] [] s 0 with ⟨b, v, p, s', c⟩
    rw [hres] at hfail
    cases b
    · dsimp only at hfail
      rcases List.mem_cons.mp hst with rfl | hst'
      · exact ⟨s, by rw [hres]⟩
      · exact ih s' hfail st hst'
    · dsimp only at hfail
      exact absurd hfail (by simp)

/-- C9 (amended, for the worker copy, the only one with a budget): the DFS
fallback runs at most five shuffled candidate starts; each candidate's
traversal starts from a fresh `dfsCallCount = 0` (the budget is per
candidate, not global) and its counter stays under
`MAX_DFS_CALLS + 4·fuel + 1` — bounded work, guaranteed termination; and
overall failure is reported only when every candidate was run and failed. -/
theorem wf_dfs_fallback_bounded (region : WF.Region) (s : Nat) :
    (∃ starts s₀, starts.length ≤ 5 ∧
        WF.dfsHamiltonianPath region s = WF.tryStartsW region region.cells starts s₀) ∧
      (∀ (cells : List Cell) (f : Nat) (cur : Cell) (v p : List Cell) (s' c : Nat),
        (WF.dfsW region cells f cur v p s' c).2.2.2.2 ≤
          max (c + 1) (WF.MAX_DFS_CALLS + 4 * f + 1)) ∧
      ∀ (cells sts : List Cell) (s' : Nat),
        (WF.tryStartsW region cells sts s').1.success = false →
        ∀ st ∈ sts, ∃ s'', (WF.dfsW region cells (cells.length + 1) st [] [] s'' 0).1 = false := by
  refine ⟨?_, fun cells => dfsW_count_bound region cells,
    fun cells => tryStartsW_failure region cells⟩
  unfold WF.dfsHamiltonianPath
  dsimp only
  by_cases hc : region.cells = []
  · rw [if_pos hc]
    exact ⟨[], s, by simp, rfl⟩
  · rw [if_neg hc]
    refine ⟨(WF.shuffle region.cells s).1.take (min 5 (WF.shuffle region.cells s).1.length),
      (WF.shuffle region.cells s).2, ?_, rfl⟩
    have := List.length_take (min 5 (WF.shuffle region.cells s).1.length)
      (WF.shuffle region.cells s).1
    omega

/-- C9 witness: the amended theorem applied to the concrete two-cell region
`wfTwoCells`: the budget bound at fuel 3, and — since the candidate loop on
the single start `(0,0)` fails — that start's run from a fresh counter
returned failure. -/
theorem wf_dfs_fallback_bounded_witness :
    (WF.dfsW wfTwoCells wfTwoCells.cells 3 ((0 : Int), 0) [] [] 7 0).2.2.2.2 ≤
        max (0 + 1) (WF.MAX_DFS_CALLS + 4 * 3 + 1) ∧
      (WF.tryStartsW wfTwoCells wfTwoCells.cells [((0 : Int), 0)] 0).1.success = false ∧
      ∃ s'', (WF.dfsW wfTwoCells wfTwoCells.cells (wfTwoCells.cells.length + 1)
        ((0 : Int), 0) [] [] s'' 0).1 = false :=
  ⟨(wf_dfs_fallback_bounded wfTwoCells 0).2.1 wfTwoCells.cells 3 ((0 : Int), 0) [] [] 7 0,
    by decide,
    (wf_dfs_fallback_bounded wfTwoCells 0).2.2 wfTwoCells.cells [((0 : Int), 0)] 0 (by decide)
      ((0 : Int), 0) (List.mem_cons_self _ _)⟩

/-! ### C8: share-code round-trip. -/

/-- C8 counterexample: the seed `"a;b"` contains the part separator, so its
share code `#seed=a;b` parses back with the seed truncated to `"a"` — the
round-trip fails on a well-typed params object. -/
theorem shareCode_roundtrip_fails :
    parseShareCode (serializeShareCode pSemi) ≠ pSemi ∧
      parseShareCode (serializeShareCode pSemi) = { seed := some "a" } := by
  constructor
  · decide
  · decide

theorem char_ofNat_digit_isDigit {r : Nat} (h : r < 10) :
    (Char.ofNat (48 + r)).isDigit = true := by
  interval_cases r <;> decide

theorem natToDigitsAux_digits : ∀ (fuel n : Nat) (acc : List Char),
    (∀ c ∈ acc, c.isDigit = true) → ∀ c ∈ natToDigitsAux fuel n acc, c.isDigit = true := by
  intro fuel
  induction fuel with
  | zero => intro n acc hacc; exact hacc
  | succ fuel ih =>
    intro n acc hacc
    simp only [natToDigitsAux]
    split
    · intro c hc
      rcases List.mem_cons.mp hc with rfl | hc'
      · exact char_ofNat_digit_isDigit (Nat.mod_lt _ (by norm_num))
      · exact hacc c hc'
    · refine ih _ _ ?_
      intro c hc
      rcases List.mem_cons.mp hc with rfl | hc'
      · exact char_ofNat_digit_isDigit (Nat.mod_lt _ (by norm_num))
      · exact hacc c hc'

theorem natToString_digits (n : Nat) : ∀ c ∈ natToString n, c.isDigit = true :=
  natToDigitsAux_digits _ _ []
    (fun c hc => absurd hc (List.not_mem_nil c))

theorem natToDigitsAux_ne_nil : ∀ (fuel n : Nat) (acc : List Char), n < fuel →
    natToDigitsAux fuel n acc ≠ [] := by
  intro fuel
  induction fuel with
  | zero => intro n acc h; omega
  | succ fuel ih =>
    intro n acc h
    simp only [natToDigitsAux]
    split
    · exact List.cons_ne_nil _ _
    · next h10 =>
      refine ih (n / 10) _ ?_
      have := Nat.div_lt_self (show 0 < n by omega) (show 1 < 10 by norm_num)
      omega

theorem natToString_ne_nil (n : Nat) : natToString n ≠ [] :=
  natToDigitsAux_ne_nil _ _ _ (Nat.lt_succ_self n)

theorem natToDigitsAux_append : ∀ (fuel n : Nat) (acc : List Char),
    natToDigitsAux fuel n acc = natToDigitsAux fuel n [] ++ acc := by
  intro fuel
  induction fuel with
  | zero => intro n acc; rfl
  | succ fuel ih =>
    intro n acc
    simp only [natToDigitsAux]
    split
    · rfl
    · rw [ih (n / 10) (Char.ofNat (48 + n % 10) :: acc),
        ih (n / 10) [Char.ofNat (48 + n % 10)], List.append_assoc]
      rfl

theorem natToDigitsAux_fuel : ∀ (f f' n : Nat), n < f → n < f' →
    natToDigitsAux f n [] = natToDigitsAux f' n [] := by
  intro f
  induction f with
  | zero => intro f' n h; omega
  | succ f ih =>
    intro f' n hf hf'
    obtain ⟨f₂, rfl⟩ : ∃ f₂, f' = f₂ + 1 := ⟨f' - 1, by omega⟩
    simp only [natToDigitsAux]
    split
    · rfl
    · next h10 =>
      have hdiv : n / 10 < n := Nat.div_lt_self (by omega) (by norm_num)
      rw [natToDigitsAux_append f, natToDigitsAux_append f₂,
        ih f₂ (n / 10) (by omega) (by omega)]

theorem natToString_small {n : Nat} (h : n < 10) :
    natToString n = [Char.ofNat (48 + n % 10)] := by
  unfold natToString
  simp only [natToDigitsAux]
  rw [if_pos h]

theorem natToString_step {n : Nat} (h : 10 ≤ n) :
    natToString n = natToString (n / 10) ++ [Char.ofNat (48 + n % 10)] := by
  have hdiv : n / 10 < n := Nat.div_lt_self (by omega) (by norm_num)
  conv_lhs => rw [natToString]; rw [natToDigitsAux]
  rw [if_neg (by omega), natToDigitsAux_append,
    natToDigitsAux_fuel n (n / 10 + 1) (n / 10) (by omega) (Nat.lt_succ_self _)]
  rfl

theorem digitsToNat_snoc (u : List Char) (c : Char) :
    digitsToNat (u ++ [c]) = digitsToNat u * 10 + (c.toNat - 48) := by
  simp [digitsToNat, List.foldl_append]

theorem digitsToNat_natToString (n : Nat) : digitsToNat (natToString n) = n := by
  induction n using Nat.strong_induction_on with
  | _ n ih =>
    by_cases h : n < 10
    · rw [natToString_small h]
      have hm : n % 10 = n := Nat.mod_eq_of_lt h
      rw [hm]
      interval_cases n <;> decide
    · rw [natToString_step (by omega), digitsToNat_snoc,
        ih (n / 10) (Nat.div_lt_self (by omega) (by norm_num))]
      have hr : n % 10 < 10 := Nat.mod_lt _ (by norm_num)
      have hch : (Char.ofNat (48 + n % 10)).toNat - 48 = n % 10 := by
        interval_cases hh : n % 10 <;> decide
      rw [hch]
      omega

theorem takeWhile_all {P : Char → Bool} : ∀ (l : List Char), (∀ c ∈ l, P c = true) →
    l.takeWhile P = l := by
  intro l
  induction l with
  | nil => intro; rfl
  | cons x xs ih =>
    intro h
    rw [List.takeWhile_cons, if_pos (h x (List.mem_cons_self x xs)),
      ih (fun c hc => h c (List.mem_cons_of_mem x hc))]

theorem headD_mem {l : List Char} (h : l ≠ []) (d : Char) : l.headD d ∈ l := by
  rcases l with - | ⟨x, xs⟩
  · exact absurd rfl h
  · exact List.mem_cons_self x xs

theorem jsParseInt_intToString (i : Int) : jsParseInt (intToString i) = some i := by
  unfold intToString jsParseInt
  split
  · next hneg =>
    simp only [List.headD_cons, List.drop_succ_cons, List.drop_zero, if_true]
    rw [takeWhile_all _ (natToString_digits _), if_neg (natToString_ne_nil _),
      digitsToNat_natToString]
    congr 1
    omega
  · next hpos =>
    have hne := natToString_ne_nil i.natAbs
    have hdig : ((natToString i.natAbs).headD ' ').isDigit = true :=
      natToString_digits _ _ (headD_mem hne ' ')
    rw [if_neg ?_, if_neg ?_]
    · rw [takeWhile_all _ (natToString_digits _), if_neg hne, digitsToNat_natToString]
      congr 1
      omega
    · intro h
      rw [h] at hdig
      exact absurd hdig (by decide)
    · intro h
      rw [h] at hdig
      exact absurd hdig (by decide)

theorem splitOnChar_not_mem {c : Char} : ∀ {l : List Char}, c ∉ l → splitOnChar c l = [l] := by
  intro l
  induction l with
  | nil => intro; rfl
  | cons x xs ih =>
    intro h
    have hx : ¬x = c := fun he => h (he ▸ List.mem_cons_self x xs)
    simp only [splitOnChar, if_neg hx]
    rw [ih (fun hm => h (List.mem_cons_of_mem x hm))]

theorem splitOnChar_append {c : Char} : ∀ {l : List Char} (t : List Char), c ∉ l →
    splitOnChar c (l ++ c :: t) = l :: splitOnChar c t := by
  intro l
  induction l with
  | nil =>
    intro t _
    simp only [List.nil_append, splitOnChar, if_pos rfl, if_true]
  | cons x xs ih =>
    intro t h
    have hx : ¬x = c := fun he => h (he ▸ List.mem_cons_self x xs)
    simp only [List.cons_append, splitOnChar, if_neg hx, List.append_eq]
    rw [ih t (fun hm => h (List.mem_cons_of_mem x hm))]

theorem splitOnChar_joinSep {c : Char} : ∀ (parts : List (List Char)), parts ≠ [] →
    (∀ part ∈ parts, c ∉ part) →
    splitOnChar c (joinSep c parts) = parts := by
  intro parts
  induction parts with
  | nil => intro h; exact absurd rfl h
  | cons x xs ih =>
    intro _ hfree
    rcases xs with - | ⟨y, ys⟩
    · exact splitOnChar_not_mem (hfree x (List.mem_cons_self x []))
    · rw [show joinSep c (x :: y :: ys) = x ++ c :: joinSep c (y :: ys) from rfl,
        splitOnChar_append _ (hfree x (List.mem_cons_self x (y :: ys))),
        ih (by simp) (fun part hp => hfree part (List.mem_cons_of_mem x hp))]

theorem keyOf_valueOf_kv {k v : List Char} (hk : '=' ∉ k) (hv : '=' ∉ v) :
    keyOf (k ++ '=' :: v) = k ∧ valueOf (k ++ '=' :: v) = v := by
  unfold keyOf valueOf
  rw [splitOnChar_append _ hk, splitOnChar_not_mem hv]
  exact ⟨rfl, rfl⟩

theorem intToString_chars (i : Int) : ∀ c ∈ intToString i, c.isDigit = true ∨ c = '-' := by
  unfold intToString
  split
  · intro c hc
    rcases List.mem_cons.mp hc with rfl | hc'
    · exact Or.inr rfl
    · exact Or.inl (natToString_digits _ c hc')
  · intro c hc
    exact Or.inl (natToString_digits _ c hc)

theorem qToString_chars (q : ℚ) :
    ∀ c ∈ qToString q, c.isDigit = true ∨ c = '-' ∨ c = '.' ∨ c = '/' := by
  unfold qToString
  intro c hc
  dsimp only at hc
  split at hc
  · rw [List.mem_append] at hc
    rcases hc with hc | hc
    · split at hc
      · rcases List.mem_singleton.mp hc with rfl
        exact Or.inr (Or.inl rfl)
      · exact absurd hc (List.not_mem_nil c)
    · exact Or.inl (natToString_digits _ c hc)
  · split at hc
    · simp only [List.append_assoc, List.mem_append, List.mem_cons] at hc
      rcases hc with hc | hc | rfl | hc
      · split at hc
        · rcases List.mem_singleton.mp hc with rfl
          exact Or.inr (Or.inl rfl)
        · exact absurd hc (List.not_mem_nil c)
      · exact Or.inl (natToString_digits _ c hc)
      · exact Or.inr (Or.inr (Or.inl rfl))
      · unfold padLeftZeros at hc
        rw [List.mem_append] at hc
        rcases hc with hc | hc
        · rw [List.eq_of_mem_replicate hc]
          exact Or.inl (by decide)
        · exact Or.inl (natToString_digits _ c hc)
    · simp only [List.append_assoc, List.mem_append, List.mem_cons] at hc
      rcases hc with hc | hc | rfl | hc
      · split at hc
        · rcases List.mem_singleton.mp hc with rfl
          exact Or.inr (Or.inl rfl)
        · exact absurd hc (List.not_mem_nil c)
      · exact Or.inl (natToString_digits _ c hc)
      · exact Or.inr (Or.inr (Or.inr rfl))
      · exact Or.inl (natToString_digits _ c hc)

theorem intToString_ne_nil (i : Int) : intToString i ≠ [] := by
  unfold intToString
  split
  · exact List.cons_ne_nil _ _
  · exact natToString_ne_nil _

theorem qToString_ne_nil (q : ℚ) : qToString q ≠ [] := by
  unfold qToString
  dsimp only
  split
  · intro h
    rw [List.append_eq_nil] at h
    exact natToString_ne_nil _ h.2
  · split
    · intro h
      simp [List.append_eq_nil] at h
    · intro h
      simp [List.append_eq_nil] at h

theorem semi_not_mem_int (i : Int) : ';' ∉ intToString i := fun hm => by
  rcases intToString_chars i ';' hm with h | h
  · exact absurd h (by decide)
  · exact absurd h (by decide)

theorem eq_not_mem_int (i : Int) : '=' ∉ intToString i := fun hm => by
  rcases intToString_chars i '=' hm with h | h
  · exact absurd h (by decide)
  · exact absurd h (by decide)

theorem semi_not_mem_q (q : ℚ) : ';' ∉ qToString q := fun hm => by
  rcases qToString_chars q ';' hm with h | h | h | h <;> exact absurd h (by decide)

theorem eq_not_mem_q (q : ℚ) : '=' ∉ qToString q := fun hm => by
  rcases qToString_chars q '=' hm with h | h | h | h <;> exact absurd h (by decide)

theorem parseStep_v (z : GameParams) (i : Int) :
    parseStep z (['v', '='] ++ intToString i) = { z with v := some i } := by
  rw [show (['v', '='] ++ intToString i) = ['v'] ++ '=' :: intToString i from rfl]
  have hkv := keyOf_valueOf_kv (k := ['v']) (v := intToString i) (by decide) (eq_not_mem_int i)
  unfold parseStep
  rw [hkv.1, hkv.2]
  rw [if_neg (fun hor => hor.elim (fun h => absurd h (by decide)) (intToString_ne_nil i))]
  rw [if_pos rfl, jsParseInt_intToString]

theorem parseStep_m (z : GameParams) (i : Int) :
    parseStep z (['m', '='] ++ intToString i) = { z with m := some i } := by
  rw [show (['m', '='] ++ intToString i) = ['m'] ++ '=' :: intToString i from rfl]
  have hkv := keyOf_valueOf_kv (k := ['m']) (v := intToString i) (by decide) (eq_not_mem_int i)
  unfold parseStep
  rw [hkv.1, hkv.2]
  rw [if_neg (fun hor => hor.elim (fun h => absurd h (by decide)) (intToString_ne_nil i))]
  rw [if_neg (by decide), if_pos rfl, jsParseInt_intToString]

theorem parseStep_w (z : GameParams) (i : Int) :
    parseStep z (['w', '='] ++ intToString i) = { z with w := some i } := by
  rw [show (['w', '='] ++ intToString i) = ['w'] ++ '=' :: intToString i from rfl]
  have hkv := keyOf_valueOf_kv (k := ['w']) (v := intToString i) (by decide) (eq_not_mem_int i)
  unfold parseStep
  rw [hkv.1, hkv.2]
  rw [if_neg (fun hor => hor.elim (fun h => absurd h (by decide)) (intToString_ne_nil i))]
  rw [if_neg (by decide), if_neg (by decide), if_pos rfl, jsParseInt_intToString]

theorem parseStep_h (z : GameParams) (i : Int) :
    parseStep z (['h', '='] ++ intToString i) = { z with h := some i } := by
  rw [show (['h', '='] ++ intToString i) = ['h'] ++ '=' :: intToString i from rfl]
  have hkv := keyOf_valueOf_kv (k := ['h']) (v := intToString i) (by decide) (eq_not_mem_int i)
  unfold parseStep
  rw [hkv.1, hkv.2]
  rw [if_neg (fun hor => hor.elim (fun h => absurd h (by decide)) (intToString_ne_nil i))]
  rw [if_neg (by decide), if_neg (by decide), if_neg (by decide), if_pos rfl,
    jsParseInt_intToString]

theorem parseStep_k (z : GameParams) (i : Int) :
    parseStep z (['k', '='] ++ intToString i) = { z with k := some i } := by
  rw [show (['k', '='] ++ intToString i) = ['k'] ++ '=' :: intToString i from rfl]
  have hkv := keyOf_valueOf_kv (k := ['k']) (v := intToString i) (by decide) (eq_not_mem_int i)
  unfold parseStep
  rw [hkv.1, hkv.2]
  rw [if_neg (fun hor => hor.elim (fun h => absurd h (by decide)) (intToString_ne_nil i))]
  rw [if_neg (by decide), if_neg (by decide), if_neg (by decide), if_neg (by decide),
    if_pos rfl, jsParseInt_intToString]

theorem parseStep_hd (z : GameParams) (q : ℚ) :
    parseStep z (['h', 'd', '='] ++ qToString q) =
      { z with hd := jsParseFloat (qToString q) } := by
  rw [show (['h', 'd', '='] ++ qToString q) = ['h', 'd'] ++ '=' :: qToString q from rfl]
  have hkv := keyOf_valueOf_kv (k := ['h', 'd']) (v := qToString q) (by decide)
    (eq_not_mem_q q)
  unfold parseStep
  rw [hkv.1, hkv.2]
  rw [if_neg (fun hor => hor.elim (fun h => absurd h (by decide)) (qToString_ne_nil q))]
  rw [if_neg (by decide), if_neg (by decide), if_neg (by decide), if_neg (by decide),
    if_neg (by decide), if_pos rfl]

theorem parseStep_diff (z : GameParams) (s : String) (hne : s.data ≠ [])
    (heq : '=' ∉ s.data) :
    parseStep z (['d', 'i', 'f', 'f', '='] ++ s.data) = { z with diff := some s } := by
  rw [show (['d', 'i', 'f', 'f', '='] ++ s.data) = ['d', 'i', 'f', 'f'] ++ '=' :: s.data
    from rfl]
  have hkv := keyOf_valueOf_kv (k := ['d', 'i', 'f', 'f']) (v := s.data) (by decide) heq
  unfold parseStep
  rw [hkv.1, hkv.2]
  rw [if_neg (fun hor => hor.elim (fun h => absurd h (by decide)) hne)]
  rw [if_neg (by decide), if_neg (by decide), if_neg (by decide), if_neg (by decide),
    if_neg (by decide), if_neg (by decide), if_pos rfl]

theorem parseStep_seed (z : GameParams) (s : String) (hne : s.data ≠ [])
    (heq : '=' ∉ s.data) :
    parseStep z (['s', 'e', 'e', 'd', '='] ++ s.data) = { z with seed := some s } := by
  rw [show (['s', 'e', 'e', 'd', '='] ++ s.data) = ['s', 'e', 'e', 'd'] ++ '=' :: s.data
    from rfl]
  have hkv := keyOf_valueOf_kv (k := ['s', 'e', 'e', 'd']) (v := s.data) (by decide) heq
  unfold parseStep
  rw [hkv.1, hkv.2]
  rw [if_neg (fun hor => hor.elim (fun h => absurd h (by decide)) hne)]
  rw [if_neg (by decide), if_neg (by decide), if_neg (by decide), if_neg (by decide),
    if_neg (by decide), if_neg (by decide), if_neg (by decide), if_pos rfl]

theorem mem_optPart {key : List Char} {o : Option (List Char)} {part : List Char}
    (h : part ∈ optPart key o) : ∃ val, o = some val ∧ part = key ++ val := by
  rcases o with - | val
  · exact absurd h (List.not_mem_nil part)
  · exact ⟨val, rfl, List.mem_singleton.mp h⟩

/-- No serialized part contains the `;` separator, provided the string
fields do not. -/
theorem partsOf_semi_free (p : GameParams)
    (hdiff : ∀ s, p.diff = some s → ';' ∉ s.data)
    (hseed : ∀ s, p.seed = some s → ';' ∉ s.data) :
    ∀ part ∈ partsOf p, ';' ∉ part := by
  intro part hp
  unfold partsOf at hp
  simp only [List.mem_append] at hp
  rcases hp with ((((((hp | hp) | hp) | hp) | hp) | hp) | hp) | hp
  · obtain ⟨val, ho, rfl⟩ := mem_optPart hp
    obtain ⟨i, hi, rfl⟩ : ∃ i, p.v = some i ∧ val = intToString i := by
      rcases hv : p.v with - | i
      · rw [hv] at ho
        exact absurd ho (by simp)
      · rw [hv] at ho
        simp only [Option.map_some'] at ho
        exact ⟨i, rfl, (Option.some.inj ho).symm⟩
    intro hm
    rcases List.mem_append.mp hm with hm | hm
    · exact absurd hm (by decide)
    · exact semi_not_mem_int _ hm
  · obtain ⟨val, ho, rfl⟩ := mem_optPart hp
    obtain ⟨i, hi, rfl⟩ : ∃ i, p.m = some i ∧ val = intToString i := by
      rcases hv : p.m with - | i
      · rw [hv] at ho
        exact absurd ho (by simp)
      · rw [hv] at ho
        simp only [Option.map_some'] at ho
        exact ⟨i, rfl, (Option.some.inj ho).symm⟩
    intro hm
    rcases List.mem_append.mp hm with hm | hm
    · exact absurd hm (by decide)
    · exact semi_not_mem_int _ hm
  · obtain ⟨val, ho, rfl⟩ := mem_optPart hp
    obtain ⟨i, hi, rfl⟩ : ∃ i, p.w = some i ∧ val = intToString i := by
      rcases hv : p.w with - | i
      · rw [hv] at ho
        exact absurd ho (by simp)
      · rw [hv] at ho
        simp only [Option.map_some'] at ho
        exact ⟨i, rfl, (Option.some.inj ho).symm⟩
    intro hm
    rcases List.mem_append.mp hm with hm | hm
    · exact absurd hm (by decide)
    · exact semi_not_mem_int _ hm
  · obtain ⟨val, ho, rfl⟩ := mem_optPart hp
    obtain ⟨i, hi, rfl⟩ : ∃ i, p.h = some i ∧ val = intToString i := by
      rcases hv : p.h with - | i
      · rw [hv] at ho
        exact absurd ho (by simp)
      · rw [hv] at ho
        simp only [Option.map_some'] at ho
        exact ⟨i, rfl, (Option.some.inj ho).symm⟩
    intro hm
    rcases List.mem_append.mp hm with hm | hm
    · exact absurd hm (by decide)
    · exact semi_not_mem_int _ hm
  · obtain ⟨val, ho, rfl⟩ := mem_optPart hp
    obtain ⟨i, hi, rfl⟩ : ∃ i, p.k = some i ∧ val = intToString i := by
      rcases hv : p.k with - | i
      · rw [hv] at ho
        exact absurd ho (by simp)
      · rw [hv] at ho
        simp only [Option.map_some'] at ho
        exact ⟨i, rfl, (Option.some.inj ho).symm⟩
    intro hm
    rcases List.mem_append.mp hm with hm | hm
    · exact absurd hm (by decide)
    · exact semi_not_mem_int _ hm
  · obtain ⟨val, ho, rfl⟩ := mem_optPart hp
    obtain ⟨q, hq, rfl⟩ : ∃ q, p.hd = some q ∧ val = qToString q := by
      rcases hv : p.hd with - | q
      · rw [hv] at ho
        exact absurd ho (by simp)
      · rw [hv] at ho
        simp only [Option.map_some'] at ho
        exact ⟨q, rfl, (Option.some.inj ho).symm⟩
    intro hm
    rcases List.mem_append.mp hm with hm | hm
    · exact absurd hm (by decide)
    · exact semi_not_mem_q _ hm
  · obtain ⟨val, ho, rfl⟩ := mem_optPart hp
    obtain ⟨s, hs, rfl⟩ : ∃ s, p.diff = some s ∧ val = String.data s := by
      rcases hv : p.diff with - | s
      · rw [hv] at ho
        exact absurd ho (by simp)
      · rw [hv] at ho
        simp only [Option.map_some'] at ho
        exact ⟨s, rfl, (Option.some.inj ho).symm⟩
    intro hm
    rcases List.mem_append.mp hm with hm | hm
    · exact absurd hm (by decide)
    · exact hdiff _ hs hm
  · obtain ⟨val, ho, rfl⟩ := mem_optPart hp
    obtain ⟨s, hs, rfl⟩ : ∃ s, p.seed = some s ∧ val = String.data s := by
      rcases hv : p.seed with - | s
      · rw [hv] at ho
        exact absurd ho (by simp)
      · rw [hv] at ho
        simp only [Option.map_some'] at ho
        exact ⟨s, rfl, (Option.some.inj ho).symm⟩
    intro hm
    rcases List.mem_append.mp hm with hm | hm
    · exact absurd hm (by decide)
    · exact hseed _ hs hm

theorem parseStep_nil (z : GameParams) : parseStep z [] = z := rfl

/-- Splitting the joined parts back and folding equals folding the parts
directly (no part contains the separator). -/
theorem foldl_parse_join (parts : List (List Char))
    (hfree : ∀ part ∈ parts, ';' ∉ part) :
    (splitOnChar ';' (joinSep ';' parts)).foldl parseStep {} =
      parts.foldl parseStep {} := by
  rcases parts with - | ⟨x, xs⟩
  · rfl
  · rw [splitOnChar_joinSep (x :: xs) (by simp) hfree]

/-- Folding the serialized parts rebuilds the params object, field by field. -/
theorem partsOf_foldl (p : GameParams)
    (hhd : ∀ q, p.hd = some q → jsParseFloat (qToString q) = some q)
    (hdiff : ∀ s, p.diff = some s → s.data ≠ [] ∧ '=' ∉ s.data)
    (hseed : ∀ s, p.seed = some s → s.data ≠ [] ∧ '=' ∉ s.data) :
    (partsOf p).foldl parseStep {} = p := by
  obtain ⟨v, m, w, h, k, hd, diff, seed⟩ := p
  dsimp only at hhd hdiff hseed
  unfold partsOf
  dsimp only
  simp only [List.foldl_append]
  have h1 : (optPart ['v', '='] (v.map intToString)).foldl parseStep {} =
      ({ v := v } : GameParams) := by
    rcases v with - | i
    · rfl
    · simp only [Option.map_some', optPart, List.foldl_cons, List.foldl_nil, parseStep_v]
  rw [h1]
  have h2 : (optPart ['m', '='] (m.map intToString)).foldl parseStep { v := v } =
      ({ v := v, m := m } : GameParams) := by
    rcases m with - | i
    · rfl
    · simp only [Option.map_some', optPart, List.foldl_cons, List.foldl_nil, parseStep_m]
  rw [h2]
  have h3 : (optPart ['w', '='] (w.map intToString)).foldl parseStep { v := v, m := m } =
      ({ v := v, m := m, w := w } : GameParams) := by
    rcases w with - | i
    · rfl
    · simp only [Option.map_some', optPart, List.foldl_cons, List.foldl_nil, parseStep_w]
  rw [h3]
  have h4 : (optPart ['h', '='] (h.map intToString)).foldl parseStep
      { v := v, m := m, w := w } = ({ v := v, m := m, w := w, h := h } : GameParams) := by
    rcases h with - | i
    · rfl
    · simp only [Option.map_some', optPart, List.foldl_cons, List.foldl_nil, parseStep_h]
  rw [h4]
  have h5 : (optPart ['k', '='] (k.map intToString)).foldl parseStep
      { v := v, m := m, w := w, h := h } =
      ({ v := v, m := m, w := w, h := h, k := k } : GameParams) := by
    rcases k with - | i
    · rfl
    · simp only [Option.map_some', optPart, List.foldl_cons, List.foldl_nil, parseStep_k]
  rw [h5]
  have h6 : (optPart ['h', 'd', '='] (hd.map qToString)).foldl parseStep
      { v := v, m := m, w := w, h := h, k := k } =
      ({ v := v, m := m, w := w, h := h, k := k, hd := hd } : GameParams) := by
    rcases hd with - | q
    · rfl
    · simp only [Option.map_some', optPart, List.foldl_cons, List.foldl_nil, parseStep_hd]
      rw [hhd q rfl]
  rw [h6]
  have h7 : (optPart ['d', 'i', 'f', 'f', '='] (diff.map String.data)).foldl parseStep
      { v := v, m := m, w := w, h := h, k := k, hd := hd } =
      ({ v := v, m := m, w := w, h := h, k := k, hd := hd, diff := diff } : GameParams) := by
    rcases diff with - | s
    · rfl
    · simp only [Option.map_some', optPart, List.foldl_cons, List.foldl_nil]
      rw [parseStep_diff _ _ (hdiff s rfl).1 (hdiff s rfl).2]
  rw [h7]
  have h8 : (optPart ['s', 'e', 'e', 'd', '='] (seed.map String.data)).foldl parseStep
      { v := v, m := m, w := w, h := h, k := k, hd := hd, diff := diff } =
      ({ v := v, m := m, w := w, h := h, k := k, hd := hd, diff := diff, seed := seed } : GameParams) := by
    rcases seed with - | s
    · rfl
    · simp only [Option.map_some', optPart, List.foldl_cons, List.foldl_nil]
      rw [parseStep_seed _ _ (hseed s rfl).1 (hseed s rfl).2]
  rw [h8]

/-- Each parse-loop iteration either leaves the params unchanged or sets the
single field selected by its key. -/
theorem parseStep_cases (part : List Char) :
    (∀ z, parseStep z part = z) ∨
    (keyOf part = ['v'] ∧ ∀ z, parseStep z part = { z with v := jsParseInt (valueOf part) }) ∨
    (keyOf part = ['m'] ∧ ∀ z, parseStep z part = { z with m := jsParseInt (valueOf part) }) ∨
    (keyOf part = ['w'] ∧ ∀ z, parseStep z part = { z with w := jsParseInt (valueOf part) }) ∨
    (keyOf part = ['h'] ∧ ∀ z, parseStep z part = { z with h := jsParseInt (valueOf part) }) ∨
    (keyOf part = ['k'] ∧ ∀ z, parseStep z part = { z with k := jsParseInt (valueOf part) }) ∨
    (keyOf part = ['h', 'd'] ∧
      ∀ z, parseStep z part = { z with hd := jsParseFloat (valueOf part) }) ∨
    (keyOf part = ['d', 'i', 'f', 'f'] ∧
      ∀ z, parseStep z part = { z with diff := some (String.mk (valueOf part)) }) ∨
    (keyOf part = ['s', 'e', 'e', 'd'] ∧
      ∀ z, parseStep z part = { z with seed := some (String.mk (valueOf part)) }) := by
  by_cases h0 : keyOf part = [] ∨ valueOf part = []
  · exact Or.inl fun z => by unfold parseStep; rw [if_pos h0]
  by_cases h1 : keyOf part = ['v']
  · exact Or.inr (Or.inl ⟨h1, fun z => by unfold parseStep; rw [if_neg h0, if_pos h1]⟩)
  by_cases h2 : keyOf part = ['m']
  · exact Or.inr (Or.inr (Or.inl ⟨h2, fun z => by
      unfold parseStep; rw [if_neg h0, if_neg h1, if_pos h2]⟩))
  by_cases h3 : keyOf part = ['w']
  · exact Or.inr (Or.inr (Or.inr (Or.inl ⟨h3, fun z => by
      unfold parseStep; rw [if_neg h0, if_neg h1, if_neg h2, if_pos h3]⟩)))
  by_cases h4 : keyOf part = ['h']
  · exact Or.inr (Or.inr (Or.inr (Or.inr (Or.inl ⟨h4, fun z => by
      unfold parseStep; rw [if_neg h0, if_neg h1, if_neg h2, if_neg h3, if_pos h4]⟩))))
  by_cases h5 : keyOf part = ['k']
  · exact Or.inr (Or.inr (Or.inr (Or.inr (Or.inr (Or.inl ⟨h5, fun z => by
      unfold parseStep
      rw [if_neg h0, if_neg h1, if_neg h2, if_neg h3, if_neg h4, if_pos h5]⟩)))))
  by_cases h6 : keyOf part = ['h', 'd']
  · exact Or.inr (Or.inr (Or.inr (Or.inr (Or.inr (Or.inr (Or.inl ⟨h6, fun z => by
      unfold parseStep
      rw [if_neg h0, if_neg h1, if_neg h2, if_neg h3, if_neg h4, if_neg h5,
        if_pos h6]⟩))))))
  by_cases h7 : keyOf part = ['d', 'i', 'f', 'f']
  · exact Or.inr (Or.inr (Or.inr (Or.inr (Or.inr (Or.inr (Or.inr (Or.inl ⟨h7, fun z => by
      unfold parseStep
      rw [if_neg h0, if_neg h1, if_neg h2, if_neg h3, if_neg h4, if_neg h5, if_neg h6,
        if_pos h7]⟩)))))))
  by_cases h8 : keyOf part = ['s', 'e', 'e', 'd']
  · exact Or.inr (Or.inr (Or.inr (Or.inr (Or.inr (Or.inr (Or.inr (Or.inr ⟨h8, fun z => by
      unfold parseStep
      rw [if_neg h0, if_neg h1, if_neg h2, if_neg h3, if_neg h4, if_neg h5, if_neg h6,
        if_neg h7, if_pos h8]⟩)))))))
  · exact Or.inl fun z => by
      unfold parseStep
      rw [if_neg h0, if_neg h1, if_neg h2, if_neg h3, if_neg h4, if_neg h5, if_neg h6,
        if_neg h7, if_neg h8]

/-- Two parse-loop iterations with different keys (or identical parts)
commute: they touch different fields of the params object. -/
theorem parseStep_comm (z : GameParams) (p1 p2 : List Char)
    (hk : keyOf p1 ≠ keyOf p2 ∨ p1 = p2) :
    parseStep (parseStep z p1) p2 = parseStep (parseStep z p2) p1 := by
  rcases hk with hk | rfl
  · rcases parseStep_cases p1 with h1 | ⟨hk1, h1⟩ | ⟨hk1, h1⟩ | ⟨hk1, h1⟩ | ⟨hk1, h1⟩ |
      ⟨hk1, h1⟩ | ⟨hk1, h1⟩ | ⟨hk1, h1⟩ | ⟨hk1, h1⟩ <;>
    rcases parseStep_cases p2 with h2 | ⟨hk2, h2⟩ | ⟨hk2, h2⟩ | ⟨hk2, h2⟩ | ⟨hk2, h2⟩ |
      ⟨hk2, h2⟩ | ⟨hk2, h2⟩ | ⟨hk2, h2⟩ | ⟨hk2, h2⟩ <;>
    simp only [h1, h2] <;>
    first
      | rfl
      | exact absurd (hk1.trans hk2.symm) hk
  · rfl

/-- C8 (amended): share-code round-trip and order independence.
`parseShareCode` is total by construction; `parse (serialize p) = p` holds
whenever each present string field is nonempty and free of the `;` and `=`
separator characters and the printed hole density parses back to itself
(true of every finite-decimal density, e.g. any value the UI produces); and
parsing is order-independent over any permutation of parts whose keys are
pairwise distinct. -/
theorem parseShareCode_roundtrip (p : GameParams)
    (hhd : ∀ q, p.hd = some q → jsParseFloat (qToString q) = some q)
    (hdiff : ∀ s, p.diff = some s →
      s.data ≠ [] ∧ ';' ∉ s.data ∧ '=' ∉ s.data)
    (hseed : ∀ s, p.seed = some s →
      s.data ≠ [] ∧ ';' ∉ s.data ∧ '=' ∉ s.data) :
    parseShareCode (serializeShareCode p) = p ∧
      ∀ (parts parts' : List (List Char)), (parts.map keyOf).Nodup →
        List.Perm parts parts' →
        parts.foldl parseStep {} = parts'.foldl parseStep {} := by
  constructor
  · rw [show serializeShareCode p = '#' :: joinSep ';' (partsOf p) from rfl,
      show parseShareCode ('#' :: joinSep ';' (partsOf p)) =
        (splitOnChar ';' (joinSep ';' (partsOf p))).foldl parseStep {} from rfl,
      foldl_parse_join _ (partsOf_semi_free p
        (fun s hs => (hdiff s hs).2.1) (fun s hs => (hseed s hs).2.1)),
      partsOf_foldl p hhd
        (fun s hs => ⟨(hdiff s hs).1, (hdiff s hs).2.2⟩)
        (fun s hs => ⟨(hseed s hs).1, (hseed s hs).2.2⟩)]
  · intro parts parts' hnodup hperm
    refine hperm.foldl_eq' ?_ ({} : GameParams)
    intro x hx y hy z
    by_cases hxy : x = y
    · subst hxy; rfl
    · exact parseStep_comm z x y
        (Or.inl fun hkeq => hxy (List.inj_on_of_nodup_map hnodup hx hy hkeq))

unseal Rat.mul Rat.add Rat.sub Rat.inv List.merge List.mergeSort in
/-- C8 witness: the amended round-trip applied to the all-fields request
`pFull` (mode 2, 7×5, K 3, density 1/4, easy, seed `z9`). -/
theorem parseShareCode_roundtrip_witness :
    parseShareCode (serializeShareCode pFull) = pFull :=
  (parseShareCode_roundtrip pFull (by decide) (by decide) (by decide)).1
